import Mathlib

/-!
Verification of the DocFlex converter pair (`Converters/DocxToJson.py`,
`Converters/JsonToDocx.py`).

The embedding models:
* raw entry bytes as `List Nat` (byte values),
* decoded Python strings as `List Nat` (Unicode code points),
* the `_T_BYTES_RE` byte regex and the placeholder regex as executable
  matchers with Python `re` semantics (leftmost match, alternation order,
  lazy/greedy subpattern behaviour, `finditer` restart at match end),
* `base64.b64encode` / `base64.b64decode` over byte lists,
* the JSON document produced by `DocxToJson.convert_to_json` and consumed by
  `JsonToDocx.json_to_xml` / `JsonToDocx.xml_to_docx` as explicit structures.

`ElementTree` parsing and serialization of an XML entry are parameters of the
reconstruction functions (`parser`, `serializer`): `json_to_xml` only reads
and rewrites the text of the parsed `t` elements, which we model as a list of
code-point strings.
-/

/-- Raw bytes of one archive entry (each element is one byte value). -/
abbrev Bytes := List Nat

/-- A decoded Python string, as its list of Unicode code points. -/
abbrev Codes := List Nat

/-- Code points of a Lean string literal (used only to write concrete inputs). -/
def codes (s : String) : List Nat := s.data.map Char.toNat

/-- Python slice `l[a:b]` for natural `a ≤ b` (clamped at the end, as in Python). -/
def sub (l : List α) (a b : Nat) : List α := (l.drop a).take (b - a)

/-! ### base64 (`base64.b64encode` / `base64.b64decode`) -/

/-- Character (byte value) of one sextet in the standard base64 alphabet. -/
def b64chr (n : Nat) : Nat :=
  if n < 26 then 65 + n
  else if n < 52 then 97 + (n - 26)
  else if n < 62 then 48 + (n - 52)
  else if n = 62 then 43 else 47

/-- Sextet value of one base64 alphabet byte. -/
def b64val (c : Nat) : Nat :=
  if 65 ≤ c ∧ c ≤ 90 then c - 65
  else if 97 ≤ c ∧ c ≤ 122 then (c - 97) + 26
  else if 48 ≤ c ∧ c ≤ 57 then (c - 48) + 52
  else if c = 43 then 62
  else if c = 47 then 63
  else 0

/-- `base64.b64encode`: 3 bytes → 4 alphabet bytes, `=` (61) padding. -/
def b64encode : Bytes → Bytes
  | [] => []
  | [a] => [b64chr (a / 4), b64chr (a % 4 * 16), 61, 61]
  | [a, b] => [b64chr (a / 4), b64chr (a % 4 * 16 + b / 16), b64chr (b % 16 * 4), 61]
  | a :: b :: c :: rest =>
    b64chr (a / 4) :: b64chr (a % 4 * 16 + b / 16) :: b64chr (b % 16 * 4 + c / 64) ::
      b64chr (c % 64) :: b64encode rest

/-- `base64.b64decode` on well-padded input (quartets, `=` = byte 61 as padding). -/
def b64decode : Bytes → Bytes
  | c1 :: c2 :: c3 :: c4 :: rest =>
    if c3 = 61 then [b64val c1 * 4 + b64val c2 / 16]
    else if c4 = 61 then
      [b64val c1 * 4 + b64val c2 / 16, b64val c2 % 16 * 16 + b64val c3 / 4]
    else
      (b64val c1 * 4 + b64val c2 / 16) :: (b64val c2 % 16 * 16 + b64val c3 / 4) ::
        (b64val c3 % 4 * 64 + b64val c4) :: b64decode rest
  | _ => []

theorem b64val_b64chr : ∀ n < 64, b64val (b64chr n) = n := by decide

theorem b64chr_ne_61 (n : Nat) : b64chr n ≠ 61 := by
  unfold b64chr; split_ifs <;> omega

/-- Decoding an encoded byte list gives it back (each element being a byte). -/
theorem b64decode_b64encode : ∀ l : Bytes, (∀ x ∈ l, x < 256) →
    b64decode (b64encode l) = l
  | [], _ => rfl
  | [a], h => by
    have ha : a < 256 := h a (by simp)
    have h1 : a / 4 < 64 := by omega
    have h2 : a % 4 * 16 < 64 := by omega
    have e1 : a / 4 * 4 + a % 4 * 16 / 16 = a := by omega
    simp only [b64encode, b64decode]
    rw [b64val_b64chr _ h1, b64val_b64chr _ h2, e1]
    simp
  | [a, b], h => by
    have ha : a < 256 := h a (by simp)
    have hb : b < 256 := h b (by simp)
    have h1 : a / 4 < 64 := by omega
    have h2 : a % 4 * 16 + b / 16 < 64 := by omega
    have h3 : b % 16 * 4 < 64 := by omega
    have e1 : a / 4 * 4 + (a % 4 * 16 + b / 16) / 16 = a := by omega
    have e2 : (a % 4 * 16 + b / 16) % 16 * 16 + b % 16 * 4 / 4 = b := by omega
    simp only [b64encode, b64decode]
    rw [if_neg (b64chr_ne_61 _)]
    rw [b64val_b64chr _ h1, b64val_b64chr _ h2, b64val_b64chr _ h3, e1, e2]
    simp
  | a :: b :: c :: rest, h => by
    have ha : a < 256 := h a (by simp)
    have hb : b < 256 := h b (by simp)
    have hc : c < 256 := h c (by simp)
    have ih := b64decode_b64encode rest (fun x hx => h x (by simp [hx]))
    have h1 : a / 4 < 64 := by omega
    have h2 : a % 4 * 16 + b / 16 < 64 := by omega
    have h3 : b % 16 * 4 + c / 64 < 64 := by omega
    have h4 : c % 64 < 64 := by omega
    have e1 : a / 4 * 4 + (a % 4 * 16 + b / 16) / 16 = a := by omega
    have e2 : (a % 4 * 16 + b / 16) % 16 * 16 + (b % 16 * 4 + c / 64) / 4 = b := by omega
    have e3 : (b % 16 * 4 + c / 64) % 4 * 64 + c % 64 = c := by omega
    show b64decode (b64chr (a / 4) :: b64chr (a % 4 * 16 + b / 16) ::
      b64chr (b % 16 * 4 + c / 64) :: b64chr (c % 64) :: b64encode rest) = a :: b :: c :: rest
    simp only [b64decode]
    rw [if_neg (b64chr_ne_61 _), if_neg (b64chr_ne_61 _)]
    rw [b64val_b64chr _ h1, b64val_b64chr _ h2, b64val_b64chr _ h3, b64val_b64chr _ h4,
      e1, e2, e3, ih]

/-! ### UTF-8 decoding (`bytes.decode("utf-8", errors="replace")`)

Valid UTF-8 sequences decode exactly; an undecodable byte yields U+FFFD.  No
theorem below depends on the error-recovery granularity: every input the
claims touch is valid UTF-8. -/

/-- U+FFFD, the replacement character used by `errors="replace"`. -/
def replCode : Nat := 0xFFFD

/-- Decode a UTF-8 byte list to code points, replacing undecodable bytes.
The structural `fuel` only bounds the recursion depth; every step consumes at
least one byte, so `utf8Decode` passing the list's length never exhausts it. -/
def utf8DecodeF : Nat → Bytes → Codes
  | 0, _ => []
  | _ + 1, [] => []
  | fuel + 1, b :: rest =>
    if b < 0x80 then b :: utf8DecodeF fuel rest
    else if 0xC2 ≤ b ∧ b ≤ 0xDF then
      match rest with
      | c :: rest2 =>
        if 0x80 ≤ c ∧ c ≤ 0xBF then
          ((b - 0xC0) * 64 + (c - 0x80)) :: utf8DecodeF fuel rest2
        else replCode :: utf8DecodeF fuel (c :: rest2)
      | [] => [replCode]
    else if 0xE0 ≤ b ∧ b ≤ 0xEF then
      match rest with
      | c :: d :: rest3 =>
        if (0x80 ≤ c ∧ c ≤ 0xBF) ∧ (0x80 ≤ d ∧ d ≤ 0xBF) ∧
            (b ≠ 0xE0 ∨ 0xA0 ≤ c) ∧ (b ≠ 0xED ∨ c ≤ 0x9F) then
          (((b - 0xE0) * 64 + (c - 0x80)) * 64 + (d - 0x80)) :: utf8DecodeF fuel rest3
        else replCode :: utf8DecodeF fuel (c :: d :: rest3)
      | [_] => [replCode, replCode]
      | [] => [replCode]
    else if 0xF0 ≤ b ∧ b ≤ 0xF4 then
      match rest with
      | c :: d :: e :: rest4 =>
        if (0x80 ≤ c ∧ c ≤ 0xBF) ∧ (0x80 ≤ d ∧ d ≤ 0xBF) ∧ (0x80 ≤ e ∧ e ≤ 0xBF) ∧
            (b ≠ 0xF0 ∨ 0x90 ≤ c) ∧ (b ≠ 0xF4 ∨ c ≤ 0x8F) then
          ((((b - 0xF0) * 64 + (c - 0x80)) * 64 + (d - 0x80)) * 64 + (e - 0x80)) ::
            utf8DecodeF fuel rest4
        else replCode :: utf8DecodeF fuel (c :: d :: e :: rest4)
      | [_, _] => [replCode, replCode, replCode]
      | [_] => [replCode, replCode]
      | [] => [replCode]
    else replCode :: utf8DecodeF fuel rest

/-- `bytes.decode("utf-8", errors="replace")`. -/
def utf8Decode (l : Bytes) : Codes := utf8DecodeF l.length l

/-! ### The `_T_BYTES_RE` byte regex

`(<(?P<tag>(?:[A-Za-z0-9_]+:)?t)(?P<attrs>[^>]*)>)(?P<text>.*?)(</(?P=tag)>)`
with `re.DOTALL`, compiled over bytes.  `matchSuffix` decides a match of this
pattern anchored at the start of a byte-list suffix, following the engine's
behaviour: the optional namespace-prefix group is tried first (its character
class is greedy but, not containing `:`, admits exactly the maximal word-byte
run), the whole alternative is abandoned on failure, `[^>]*` is deterministic,
and the lazy `.*?` stops at the first occurrence of the closing tag. -/

/-- `[A-Za-z0-9_]` on byte values. -/
def wordByte (b : Nat) : Bool :=
  (65 ≤ b && b ≤ 90) || (97 ≤ b && b ≤ 122) || (48 ≤ b && b ≤ 57) || (b == 95)

/-- Index of the first occurrence of `pat` in `l`, if any. -/
def firstOccur (l pat : Bytes) : Option Nat :=
  if pat.isPrefixOf l then some 0
  else
    match l with
    | [] => none
    | _ :: t => (firstOccur t pat).map (· + 1)

/-- A match of `_T_BYTES_RE` relative to the start of the attempted suffix. -/
structure SufMatch where
  tag : Bytes
  textOff : Nat
  textLen : Nat
  stop : Nat
deriving DecidableEq

/-- After the tag name is fixed: match `[^>]*>` then lazily seek `</tag>`.
`v` is the suffix after the tag name, `consumed` the bytes before it. -/
def matchFinish (tag : Bytes) (v : Bytes) (consumed : Nat) : Option SufMatch :=
  let attrs := v.takeWhile (fun b => b ≠ 62)
  match v.drop attrs.length with
  | c :: body =>
    if c = 62 then
      match firstOccur body ([60, 47] ++ tag ++ [62]) with
      | some k =>
        some ⟨tag, consumed + attrs.length + 1, k,
          consumed + attrs.length + 1 + k + (tag.length + 3)⟩
      | none => none
    else none
  | [] => none

/-- Match `_T_BYTES_RE` at the start of suffix `u` (None: no match here). -/
def matchSuffix (u : Bytes) : Option SufMatch :=
  match u with
  | b :: rest =>
    if b = 60 then
      let run := rest.takeWhile wordByte
      let tried :=
        if run ≠ [] ∧ (rest.drop run.length).head? = some 58 ∧
            (rest.drop (run.length + 1)).head? = some 116 then
          matchFinish (run ++ [58, 116]) (rest.drop (run.length + 2)) (1 + run.length + 2)
        else none
      match tried with
      | some m => some m
      | none =>
        match rest with
        | c :: rest2 => if c = 116 then matchFinish [116] rest2 2 else none
        | [] => none
    else none
  | [] => none

/-- Does `u` begin with `<t` or `<word-run:t`?  Any `_T_BYTES_RE` match starts so. -/
def opensTB (u : Bytes) : Bool :=
  match u with
  | b :: rest =>
    (b == 60) &&
      ((rest.head? == some 116) ||
        (let run := rest.takeWhile wordByte
         (!run.isEmpty) && ((rest.drop run.length).head? == some 58) &&
           ((rest.drop (run.length + 1)).head? == some 116)))
  | [] => false

/-! ### `re.finditer`: leftmost non-overlapping matches in scan order -/

/-- Generic `finditer` driver: try `next` at each position; after a match
resume at its end (Python advances one position after an empty match).  The
structural `fuel` argument only bounds the number of scan steps; every use
supplies at least `len + 1 - i`, which the position monotonicity makes
sufficient, so the `fuel = 0` clause is never reached. -/
def scanG (next : Nat → Option (α × Nat)) (len : Nat) : Nat → Nat → List α
  | _, 0 => []
  | i, fuel + 1 =>
    if i < len then
      match next i with
      | some (a, e) => a :: scanG next len (if i < e then e else i + 1) fuel
      | none => scanG next len (i + 1) fuel
    else []

/-- One absolute-position match of `_T_BYTES_RE` inside a whole byte string. -/
structure TMatchM where
  tag : Bytes
  start : Nat
  stop : Nat
  textStart : Nat
  textLen : Nat
deriving DecidableEq

/-- Attempt `_T_BYTES_RE` at absolute position `i` of `raw`. -/
def tNext (raw : Bytes) (i : Nat) : Option (TMatchM × Nat) :=
  match matchSuffix (raw.drop i) with
  | some m => some (⟨m.tag, i, i + m.stop, i + m.textOff, m.textLen⟩, i + m.stop)
  | none => none

/-- `_T_BYTES_RE.finditer(raw)`. -/
def T_BYTES_finditer (raw : Bytes) : List TMatchM :=
  scanG (tNext raw) raw.length 0 (raw.length + 1)

/-! ### Data model of the editable JSON (`DocxToJson.convert_to_json`) -/

/-- One run: `{"run_id", "text", "start", "end", "snippet_b64"}` (the JSON key
`end` is spelled `stop` here; `end` is reserved in Lean). -/
structure RunM where
  run_id : Nat
  text : Codes
  start : Nat
  stop : Nat
  snippet_b64 : Bytes
deriving DecidableEq

/-- One contributing-run segment `{"run_id", "start_in_run", "end_in_run"}`. -/
structure SegM where
  run_id : Nat
  start_in_run : Nat
  end_in_run : Nat
deriving DecidableEq

/-- One placeholder `{"placeholder", "concat_offset", "runs"}`. -/
structure PlaceholderM where
  placeholder : Codes
  concat_offset : Nat
  runs : List SegM
deriving DecidableEq

/-- The `_editable` block `{"runs", "placeholders"}`. -/
structure EditableM where
  runs : List RunM
  placeholders : List PlaceholderM
deriving DecidableEq

/-- Cached `zipfile.ZipInfo` metadata. -/
structure ZipInfoM where
  compress_type : Nat
  date_time : List Nat
  external_attr : Nat
  create_system : Nat
deriving DecidableEq

/-- One JSON entry `{"content_b64", "zipinfo"}` plus the optional `_editable`. -/
structure EntryM where
  content_b64 : Bytes
  zipinfo : ZipInfoM
  editable : Option EditableM
deriving DecidableEq

/-- One entry of the input archive as read by `zipfile` (name, bytes, metadata). -/
structure ArchiveEntryM where
  name : Codes
  bytes : Bytes
  zipinfo : ZipInfoM
deriving DecidableEq

/-- The runs list built by `_make_editable_for_xml` from the regex matches:
`run_id` is the enumeration index, `text` the decoded `text` group, `start`/
`stop` the match span, `snippet_b64` the base64 of the matched bytes. -/
def runsOfMatches (raw : Bytes) (ms : List TMatchM) : List RunM :=
  ms.enum.map fun p =>
    { run_id := p.1
      text := utf8Decode (sub raw p.2.textStart (p.2.textStart + p.2.textLen))
      start := p.2.start
      stop := p.2.stop
      snippet_b64 := b64encode (sub raw p.2.start p.2.stop) }

/-! ### The placeholder regex `\{\{.*?\}\}|\{[^{}]+\}` over code points

Python alternation tries the double-brace branch first; `.*?` (no DOTALL)
cannot cross a newline (10) and stops at the first `}}`; `[^{}]+` is greedy
over non-brace code points (newlines included) and must be followed by `}`. -/

/-- Lazy scan of `\}\}` after `\{\{`: length consumed up to and including the
first `}}`, failing at a newline or the end. -/
def dblScan : Codes → Option Nat
  | c :: rest =>
    if c = 125 ∧ rest.head? = some 125 then some 2
    else if c = 10 then none
    else (dblScan rest).map (· + 1)
  | [] => none

/-- The single-brace branch `\{[^{}]+\}` at the start of `u`: match length. -/
def sglBrace (u : Codes) : Option Nat :=
  match u with
  | b :: rest =>
    if b = 123 then
      let run := rest.takeWhile fun c => c ≠ 123 ∧ c ≠ 125
      if run ≠ [] ∧ (rest.drop run.length).head? = some 125 then some (1 + run.length + 1)
      else none
    else none
  | [] => none

/-- Match the placeholder regex at the start of `u`: match length. -/
def phMatchLen (u : Codes) : Option Nat :=
  match u with
  | c1 :: c2 :: rest =>
    if c1 = 123 ∧ c2 = 123 then
      match dblScan rest with
      | some k => some (2 + k)
      | none => sglBrace u
    else sglBrace u
  | _ => sglBrace u

/-- Attempt the placeholder regex at absolute position `i`; payload is the
match span `[i, i+len)`. -/
def phNext (s : Codes) (i : Nat) : Option ((Nat × Nat) × Nat) :=
  match phMatchLen (s.drop i) with
  | some L => some ((i, i + L), i + L)
  | none => none

/-- `re.finditer` of the placeholder regex over the concatenated run text. -/
def PH_finditer (s : Codes) : List (Nat × Nat) :=
  scanG (phNext s) s.length 0 (s.length + 1)

/-- The contributing-runs loop of `_make_editable_for_xml` for one match span
`[ph_start, ph_end)`;  `pos` is the running offset of the current run inside
the concatenated text.  (`max(0, ph_start - pos)` is truncated Nat
subtraction; the loop's `break` on `pos >= ph_end` returns early.) -/
def phMapping (runs : List RunM) (pos ph_start ph_end : Nat) : List SegM :=
  match runs with
  | [] => []
  | r :: rest =>
    let rlen := r.text.length
    if pos + rlen ≤ ph_start then phMapping rest (pos + rlen) ph_start ph_end
    else if ph_end ≤ pos then []
    else
      { run_id := r.run_id, start_in_run := ph_start - pos,
        end_in_run := min rlen (ph_end - pos) } ::
        phMapping rest (pos + rlen) ph_start ph_end

/-- `DocxToJson._make_editable_for_xml`. -/
def make_editable_for_xml (raw : Bytes) : EditableM :=
  let runs := runsOfMatches raw (T_BYTES_finditer raw)
  let concatenated := (runs.map (·.text)).flatten
  let placeholders := (PH_finditer concatenated).map fun sp =>
    { placeholder := sub concatenated sp.1 sp.2
      concat_offset := sp.1
      runs := phMapping runs 0 sp.1 sp.2 }
  { runs := runs, placeholders := placeholders }

/-- ASCII case folding (`str.lower` restricted to ASCII letters: archive entry
names are ASCII paths). -/
def asciiLower (c : Nat) : Nat := if 65 ≤ c ∧ c ≤ 90 then c + 32 else c

/-- `name.lower().endswith(".xml")`. -/
def isXmlName (name : Codes) : Bool :=
  (codes ".xml").isSuffixOf (name.map asciiLower)

/-- `DocxToJson.convert_to_json`: the JSON document's entry list, in archive
order.  `_editable` is attached exactly to `.xml`-named entries (the
`try/except` around `_make_editable_for_xml` is dead: the model, like the
Python body, cannot raise). -/
def convert_to_json (archive : List ArchiveEntryM) : List (Codes × EntryM) :=
  archive.map fun a =>
    (a.name,
      { content_b64 := b64encode a.bytes
        zipinfo := a.zipinfo
        editable :=
          if isXmlName a.name then some (make_editable_for_xml a.bytes) else none })

/-! ### `JsonToDocx`: auto-detected edits and span-based splicing -/

/-- Python `dict` built by successive assignments from an association list:
lookup returns the value of the last assignment of the key. -/
def dictGet [DecidableEq α] (m : List (α × β)) (k : α) : Option β :=
  m.foldl (fun acc p => if p.1 = k then some p.2 else acc) none

/-- `run_text_by_id = {r["run_id"]: r.get("text") or "" for r in runs}` with
`dict.get(rid, "")`. -/
def run_text_by_id (runs : List RunM) (rid : Nat) : Codes :=
  (dictGet (runs.map fun r => (r.run_id, r.text)) rid).getD []

/-- Reconstruction of a placeholder's current text across its span:
`"".join(run_text_by_id.get(seg["run_id"], "")[s:e] for seg in span)`. -/
def reconstructSpan (runs : List RunM) (segs : List SegM) : Codes :=
  (segs.map fun seg =>
    sub (run_text_by_id runs seg.run_id) seg.start_in_run seg.end_in_run).flatten

/-- `JsonToDocx._auto_detect_edits_from_runs`: emits `orig_ph -> current_text`
for every placeholder whose reconstructed span text differs from its token
(dict assignment = association list append, last assignment wins). -/
def auto_detect_edits_from_runs (ed : EditableM) : List (Codes × Codes) :=
  if ed.runs = [] ∨ ed.placeholders = [] then []
  else
    ed.placeholders.foldl
      (fun acc ph =>
        let current := reconstructSpan ed.runs ph.runs
        if current ≠ ph.placeholder then acc ++ [(ph.placeholder, current)] else acc)
      []

/-- `runid_to_elem`: `zip(runs, t_elems)` keyed by `run_id`, valued by the
element's position among the parsed `t` elements (`nElems` of them). -/
def ridToIdx (runsMeta : List RunM) (nElems : Nat) (rid : Nat) : Option Nat :=
  dictGet ((runsMeta.map (·.run_id)).zip (List.range nElems)) rid

/-- The element-gathering loop over a placeholder's span: all segments must
resolve through `runid_to_elem`, else the whole edit is abandoned
(`elems = []; break` then `if not elems: continue`). -/
def resolveSegs (runsMeta : List RunM) (nElems : Nat) (segs : List SegM) :
    Option (List (Nat × Nat × Nat)) :=
  segs.mapM fun seg =>
    (ridToIdx runsMeta nElems seg.run_id).map fun j =>
      (j, seg.start_in_run, seg.end_in_run)

/-- Current text of element `i` (parsed `<t>` texts; `el.text or ""`). -/
def getT (ts : List Codes) (i : Nat) : Codes := ts.getD i []

/-- The byte-splice of one placeholder edit over the gathered elements:
one element → in-place slice replacement; several → the first element keeps
its prefix and receives the replacement, middle elements keep only their
uncovered text, the last element keeps only its suffix after the span. -/
def spliceElems (ts : List Codes) (elems : List (Nat × Nat × Nat)) (repl : Codes) :
    List Codes :=
  match elems with
  | [] => ts
  | [(i, s, e)] => ts.set i ((getT ts i).take s ++ repl ++ (getT ts i).drop e)
  | (i0, s0, _) :: rest =>
    let ts1 := ts.set i0 ((getT ts i0).take s0 ++ repl)
    let ts2 := rest.dropLast.foldl
      (fun acc p => acc.set p.1 ((getT acc p.1).take p.2.1 ++ (getT acc p.1).drop p.2.2))
      ts1
    match rest.getLast? with
    | some (il, _, el) => ts2.set il ((getT ts2 il).drop el)
    | none => ts2

/-- The body of the placeholder loop in `json_to_xml` for one placeholder. -/
def applyPhEdit (runsMeta : List RunM) (file_edits : List (Codes × Codes))
    (ts : List Codes) (ph : PlaceholderM) : List Codes :=
  match dictGet file_edits ph.placeholder with
  | none => ts
  | some replacement =>
    if ph.runs = [] then ts
    else
      match resolveSegs runsMeta ts.length ph.runs with
      | none => ts
      | some elems => spliceElems ts elems replacement

/-- The whole placeholder loop of `json_to_xml` over one entry's `t` texts. -/
def applyEdits (ed : EditableM) (file_edits : List (Codes × Codes))
    (tElems : List Codes) : List Codes :=
  ed.placeholders.foldl (applyPhEdit ed.runs file_edits) tElems

/-- The JSON document: entries in archive order plus the top-level `_edits`
mapping (entry name → placeholder token → replacement). -/
structure JsonDocM where
  entries : List (Codes × EntryM)
  edits : List (Codes × List (Codes × Codes))
deriving DecidableEq

/-- `JsonToDocx.json_to_xml`, returning per entry the bytes written to the
temp tree.  `parser raw` stands for `ET.fromstring` (the parsed `t` element
texts in document order, `none` on a parse failure) and `serializer raw ts`
for `ET.tostring` of that tree with its `t` texts replaced by `ts`. -/
def json_to_xml (parser : Bytes → Option (List Codes))
    (serializer : Bytes → List Codes → Bytes) (doc : JsonDocM) :
    List (Codes × Bytes) :=
  doc.entries.map fun p =>
    let raw := b64decode p.2.content_b64
    match p.2.editable with
    | some ed =>
      if isXmlName p.1 then
        let file_edits := (dictGet doc.edits p.1).getD [] ++ auto_detect_edits_from_runs ed
        if file_edits ≠ [] then
          match parser raw with
          | none => (p.1, raw)
          | some tElems => (p.1, serializer raw (applyEdits ed file_edits tElems))
        else (p.1, raw)
      else (p.1, raw)
    | none => (p.1, raw)

/-- `JsonToDocx.xml_to_docx`: re-packs the archive, taking each entry's bytes
from the temp tree written by `json_to_xml` (present for every entry with
content) and its metadata from the entry's `zipinfo` (`date_time` only when it
has six fields, else the current time `now`; `create_system` is not copied —
`zipfile.ZipInfo`'s default 0 is used). -/
def xml_to_docx (doc : JsonDocM) (files : List (Codes × Bytes)) (now : List Nat) :
    List ArchiveEntryM :=
  doc.entries.map fun p =>
    { name := p.1
      bytes := (dictGet files p.1).getD (b64decode p.2.content_b64)
      zipinfo :=
        { compress_type := p.2.zipinfo.compress_type
          date_time := if p.2.zipinfo.date_time.length = 6 then p.2.zipinfo.date_time else now
          external_attr := p.2.zipinfo.external_attr
          create_system := 0 } }

/-- One full conversion cycle: `convert_to_json`, then `json_to_xml` with the
edit set `edits`, then `xml_to_docx`. -/
def full_cycle (parser : Bytes → Option (List Codes))
    (serializer : Bytes → List Codes → Bytes) (now : List Nat)
    (edits : List (Codes × List (Codes × Codes))) (archive : List ArchiveEntryM) :
    List ArchiveEntryM :=
  xml_to_docx { entries := convert_to_json archive, edits := edits }
    (json_to_xml parser serializer { entries := convert_to_json archive, edits := edits })
    now

/-! ### Explicitly closed `t` elements (for the extractor's exactness)

`_T_BYTES_RE` only matches explicitly closed elements
`<name attrs>text</name>` whose name is `t` or `prefix:t`; a well-formedness
class of inputs is described by a filler/block decomposition on which the
extractor's output can be computed exactly. -/

/-- An explicitly closed `t` element `<tname attrs>txt</tname>` (the brackets
are not stored): `tname` is the tag name, `attrs` the attribute bytes between
the name and `>`, `txt` the inner text bytes. -/
structure TBlockM where
  tname : Bytes
  attrs : Bytes
  txt : Bytes
deriving DecidableEq

/-- The opening tag `<tname attrs>` of a block. -/
def openTagB (b : TBlockM) : Bytes := [60] ++ b.tname ++ b.attrs ++ [62]

/-- The closing tag `</tname>` of a block. -/
def closeTagB (b : TBlockM) : Bytes := [60, 47] ++ b.tname ++ [62]

/-- The full bytes `<tname attrs>txt</tname>` of a block. -/
def blockBytes (b : TBlockM) : Bytes := openTagB b ++ b.txt ++ closeTagB b

/-- Interleave filler bytes and blocks: `f₀ B₀ f₁ B₁ … fₙ₋₁ Bₙ₋₁ trailing`. -/
def assembleBlocks : List (Bytes × TBlockM) → Bytes → Bytes
  | [], trailing => trailing
  | (f, b) :: rest, trailing => f ++ blockBytes b ++ assembleBlocks rest trailing

/-- The tag name is `t`, or `prefix:t` for a nonempty word-byte run. -/
def NameOK (n : Bytes) : Prop :=
  n = [116] ∨ ∃ w, w ≠ [] ∧ (∀ c ∈ w, wordByte c = true) ∧ n = w ++ [58, 116]

/-- Attribute bytes contain no `>`, and (if nonempty) start with a byte that
is neither a word byte nor `:` (as a space does), so that a bare `<t` is not
read as part of a longer name. -/
def AttrsOK (a : Bytes) : Prop :=
  (∀ c ∈ a, c ≠ 62) ∧
    (a = [] ∨ ∃ c a2, a = c :: a2 ∧ wordByte c = false ∧ c ≠ 58)

/-- The closing tag does not occur anywhere inside the inner text (so the
lazy `.*?` stops exactly at the block's own closing tag). -/
def TxtOK (b : TBlockM) : Prop :=
  ∀ j < b.txt.length,
    (closeTagB b).isPrefixOf ((b.txt ++ closeTagB b).drop j) = false

/-- No suffix of the filler, continued by `<`, opens a `t` tag: no
`_T_BYTES_RE` match can start inside the filler. -/
def SepOK (f : Bytes) : Prop :=
  ∀ i < f.length, opensTB (f.drop i ++ [60]) = false

instance (b : TBlockM) : Decidable (TxtOK b) := by
  unfold TxtOK
  infer_instance

instance (f : Bytes) : Decidable (SepOK f) := by
  unfold SepOK
  infer_instance

/-- The matches `_T_BYTES_RE.finditer` yields on an assembled input, with
`off` the absolute offset of the first filler. -/
def expectedTMatches : List (Bytes × TBlockM) → Nat → List TMatchM
  | [], _ => []
  | (f, b) :: rest, off =>
    ⟨b.tname, off + f.length, off + f.length + (blockBytes b).length,
      off + f.length + (openTagB b).length, b.txt.length⟩ ::
      expectedTMatches rest (off + f.length + (blockBytes b).length)

/-- The runs `_make_editable_for_xml` builds on an assembled input: one run
per block, in order, with the block's decoded text and exact byte span. -/
def expectedRuns : List (Bytes × TBlockM) → Nat → Nat → List RunM
  | [], _, _ => []
  | (f, b) :: rest, off, k =>
    ⟨k, utf8Decode b.txt, off + f.length,
      off + f.length + (blockBytes b).length, b64encode (blockBytes b)⟩ ::
      expectedRuns rest (off + f.length + (blockBytes b).length) (k + 1)

/-! ### Lemmas about the generic `finditer` driver -/

theorem scanG_zero (next : Nat → Option (α × Nat)) (len i : Nat) :
    scanG next len i 0 = [] := rfl

theorem scanG_ge (next : Nat → Option (α × Nat)) {len i : Nat} (fuel : Nat)
    (h : ¬ i < len) : scanG next len i fuel = [] := by
  cases fuel with
  | zero => rfl
  | succ fuel => rw [scanG, if_neg h]

theorem scanG_step_none {next : Nat → Option (α × Nat)} {len i fuel : Nat} (hi : i < len)
    (hn : next i = none) : scanG next len i (fuel + 1) = scanG next len (i + 1) fuel := by
  rw [scanG, if_pos hi, hn]

theorem scanG_step_some {next : Nat → Option (α × Nat)} {len i fuel : Nat} {a : α} {e : Nat}
    (hi : i < len) (hn : next i = some (a, e)) (hie : i < e) :
    scanG next len i (fuel + 1) = a :: scanG next len e fuel := by
  rw [scanG, if_pos hi, hn]
  simp [hie]

theorem scanG_step_some_adv {next : Nat → Option (α × Nat)} {len i fuel : Nat} {a : α}
    {e : Nat} (hi : i < len) (hn : next i = some (a, e)) (hie : ¬ i < e) :
    scanG next len i (fuel + 1) = a :: scanG next len (i + 1) fuel := by
  rw [scanG, if_pos hi, hn]
  simp [hie]

/-- The fuel does not matter once it covers the distance to the end. -/
theorem scanG_fuel {next : Nat → Option (α × Nat)} {len : Nat} :
    ∀ (fuel fuel' i : Nat), len ≤ i + fuel → len ≤ i + fuel' →
      scanG next len i fuel = scanG next len i fuel'
  | 0, fuel', i, h, _ => by
    rw [scanG_zero, scanG_ge next fuel' (by omega)]
  | fuel + 1, 0, i, _, h' => by
    rw [scanG_zero, scanG_ge next (fuel + 1) (by omega)]
  | fuel + 1, fuel' + 1, i, h, h' => by
    by_cases hi : i < len
    · cases hn : next i with
      | none =>
        rw [scanG_step_none hi hn, scanG_step_none hi hn]
        exact scanG_fuel fuel fuel' (i + 1) (by omega) (by omega)
      | some ae =>
        obtain ⟨a, e⟩ := ae
        by_cases hie : i < e
        · rw [scanG_step_some hi hn hie, scanG_step_some hi hn hie]
          rw [scanG_fuel fuel fuel' e (by omega) (by omega)]
        · rw [scanG_step_some_adv hi hn hie, scanG_step_some_adv hi hn hie]
          rw [scanG_fuel fuel fuel' (i + 1) (by omega) (by omega)]
    · rw [scanG_ge next _ hi, scanG_ge next _ hi]

/-- Scanning may start after any region where no match begins. -/
theorem scanG_skip {next : Nat → Option (α × Nat)} {len : Nat} :
    ∀ (d i fuel fuel' : Nat), len ≤ i + fuel → len ≤ i + d + fuel' →
      (∀ j, i ≤ j → j < i + d → next j = none) →
      scanG next len i fuel = scanG next len (i + d) fuel'
  | 0, i, fuel, fuel', h, h', _ => by
    have h2 : len ≤ i + fuel' := by omega
    simpa using scanG_fuel fuel fuel' i h h2
  | d + 1, i, fuel, fuel', h, h', hnone => by
    by_cases hi : i < len
    · cases fuel with
      | zero => exact absurd hi (by omega)
      | succ fuel =>
        rw [scanG_step_none hi (hnone i le_rfl (by omega))]
        have hA : len ≤ i + 1 + fuel := by omega
        have hB : len ≤ i + 1 + d + fuel' := by omega
        have hrec := scanG_skip d (i + 1) fuel fuel' hA hB
          (fun j h1 h2 => hnone j (by omega) (by omega))
        rw [hrec]
        congr 1
        omega
    · rw [scanG_ge next _ hi, scanG_ge next _ (by omega)]

/-- Positions and spans of emitted matches: every match lies at or after the
scan position, is nonempty, ends within bounds, and matches are chained
disjointly in scan order. -/
theorem scanG_inv {next : Nat → Option (α × Nat)} {len : Nat} (st sp : α → Nat)
    (hnext : ∀ i a e, next i = some (a, e) → st a = i ∧ sp a = e ∧ i < e ∧ e ≤ len) :
    ∀ (fuel i : Nat),
      (∀ a ∈ scanG next len i fuel, i ≤ st a ∧ st a < sp a ∧ sp a ≤ len) ∧
        List.Pairwise (fun a b => sp a ≤ st b ∧ st a < st b) (scanG next len i fuel)
  | 0, i => by rw [scanG_zero]; simp
  | fuel + 1, i => by
    by_cases hi : i < len
    · cases hn : next i with
      | none =>
        rw [scanG_step_none hi hn]
        have ih := scanG_inv st sp hnext fuel (i + 1)
        exact ⟨fun a ha => ⟨by have := (ih.1 a ha).1; omega, (ih.1 a ha).2.1,
          (ih.1 a ha).2.2⟩, ih.2⟩
      | some ae =>
        obtain ⟨a, e⟩ := ae
        obtain ⟨hst, hsp, hie, hel⟩ := hnext i a e hn
        rw [scanG_step_some hi hn hie]
        have ih := scanG_inv st sp hnext fuel e
        constructor
        · intro b hb
          rcases List.mem_cons.mp hb with hb | hb
          · subst hb; omega
          · have := ih.1 b hb; omega
        · exact List.Pairwise.cons (fun b hb => by have := (ih.1 b hb).1; omega) ih.2
    · rw [scanG_ge next _ hi]
      simp

/-! ### Lemmas about `firstOccur` -/

theorem firstOccur_spec : ∀ (l pat : Bytes) (k : Nat), firstOccur l pat = some k →
    pat.isPrefixOf (l.drop k) = true ∧ ∀ j < k, pat.isPrefixOf (l.drop j) = false
  | l, pat, k, h => by
    unfold firstOccur at h
    by_cases hp : pat.isPrefixOf l = true
    · rw [if_pos hp] at h
      cases h
      exact ⟨hp, by omega⟩
    · rw [if_neg hp] at h
      match l with
      | [] => cases h
      | x :: t =>
        simp only [Option.map_eq_some'] at h
        obtain ⟨k', hk', rfl⟩ := h
        have ih := firstOccur_spec t pat k' hk'
        refine ⟨ih.1, fun j hj => ?_⟩
        match j with
        | 0 => simpa using Bool.eq_false_iff.mpr hp
        | j + 1 => exact ih.2 j (by omega)

theorem firstOccur_complete : ∀ (k : Nat) (l pat : Bytes),
    pat.isPrefixOf (l.drop k) = true → (∀ j < k, pat.isPrefixOf (l.drop j) = false) →
    firstOccur l pat = some k
  | 0, l, pat, h, _ => by unfold firstOccur; rw [if_pos (by simpa using h)]
  | k + 1, l, pat, h, hj => by
    have h0 : pat.isPrefixOf l = false := by simpa using hj 0 (by omega)
    unfold firstOccur
    rw [if_neg (by simp [h0])]
    match l with
    | [] =>
      exfalso
      have : pat.isPrefixOf ([] : Bytes) = true := by simpa using h
      simp_all
    | x :: t =>
      have hk := firstOccur_complete k t pat (by simpa using h)
        (fun j hjk => by simpa using hj (j + 1) (by omega))
      show (firstOccur t pat).map (· + 1) = some (k + 1)
      rw [hk]
      rfl

theorem firstOccur_bound {l pat : Bytes} {k : Nat} (h : firstOccur l pat = some k)
    (hne : pat ≠ []) : k + pat.length ≤ l.length := by
  have h1 := (firstOccur_spec l pat k h).1
  have h2 : pat <+: l.drop k := List.isPrefixOf_iff_prefix.mp h1
  have h3 : pat.length ≤ (l.drop k).length := h2.length_le
  have h4 : (l.drop k).length = l.length - k := List.length_drop k l
  have h5 : 0 < pat.length := List.length_pos.mpr hne
  omega

/-! ### Bounds of `_T_BYTES_RE` matches -/

theorem matchFinish_spec {tag v : Bytes} {consumed : Nat} {m : SufMatch}
    (h : matchFinish tag v consumed = some m) :
    m.tag = tag ∧ consumed < m.stop ∧ m.stop ≤ consumed + v.length := by
  simp only [matchFinish] at h
  split at h
  next c body heq =>
    have hd := congrArg List.length heq
    rw [List.length_drop] at hd
    simp only [List.length_cons] at hd
    split at h
    · split at h
      next k hk =>
        cases h
        have hb := firstOccur_bound hk (by simp)
        simp only [List.length_append, List.length_cons, List.length_nil] at hb
        refine ⟨rfl, ?_, ?_⟩ <;> dsimp only <;> omega
      next => cases h
    · cases h
  next => cases h

theorem matchSuffix_spec {u : Bytes} {m : SufMatch} (h : matchSuffix u = some m) :
    0 < m.stop ∧ m.stop ≤ u.length := by
  simp only [matchSuffix] at h
  split at h
  next b rest =>
    split at h
    · split at h
      next m' hm' =>
        -- the namespace-prefixed alternative succeeded
        cases h
        split at hm'
        next hcond =>
          obtain ⟨h1, h2, h3⟩ := hcond
          have hs := matchFinish_spec hm'
          rw [List.length_drop] at hs
          have h4 : rest.drop ((rest.takeWhile wordByte).length + 1) ≠ [] := by
            intro he
            rw [he] at h3
            cases h3
          have h5 : (rest.takeWhile wordByte).length + 1 < rest.length := by
            by_contra hle
            exact h4 (List.drop_eq_nil_iff.mpr (by omega))
          simp only [List.length_cons]
          omega
        next => cases hm'
      next hnone =>
        -- fall back to the bare `t` alternative
        split at h
        next c rest2 =>
          split at h
          · have hs := matchFinish_spec h
            simp only [List.length_cons]
            omega
          · cases h
        next => cases h
    · cases h
  next => cases h

theorem tNext_spec {raw : Bytes} {i : Nat} {a : TMatchM} {e : Nat}
    (h : tNext raw i = some (a, e)) :
    a.start = i ∧ a.stop = e ∧ i < e ∧ e ≤ raw.length := by
  simp only [tNext] at h
  split at h
  next m hm =>
    cases h
    have hs := matchSuffix_spec hm
    rw [List.length_drop] at hs
    exact ⟨rfl, rfl, by omega, by omega⟩
  next => cases h

/-- All `_T_BYTES_RE` matches are nonempty, in bounds, disjoint, in order. -/
theorem T_BYTES_finditer_inv (raw : Bytes) :
    (∀ m ∈ T_BYTES_finditer raw, m.start < m.stop ∧ m.stop ≤ raw.length) ∧
      List.Pairwise (fun a b => a.stop ≤ b.start ∧ a.start < b.start)
        (T_BYTES_finditer raw) := by
  have h := @scanG_inv _ (tNext raw) raw.length TMatchM.start TMatchM.stop
    (fun i a e hx => tNext_spec hx) (raw.length + 1) 0
  exact ⟨fun m hm => ⟨(h.1 m hm).2.1, (h.1 m hm).2.2⟩, h.2⟩

theorem runsOfMatches_run_id (raw : Bytes) (ms : List TMatchM) :
    (runsOfMatches raw ms).map (·.run_id) = List.range ms.length := by
  unfold runsOfMatches
  rw [List.map_map]
  exact List.enum_map_fst ms

theorem runsOfMatches_length (raw : Bytes) (ms : List TMatchM) :
    (runsOfMatches raw ms).length = ms.length := by
  simp [runsOfMatches]

theorem make_editable_runs (raw : Bytes) :
    (make_editable_for_xml raw).runs = runsOfMatches raw (T_BYTES_finditer raw) := rfl

/-- C10 theorem: the extractor's `run_id`s are `0, 1, 2, …` in emission order,
and the byte spans are nonempty, within the entry, pairwise disjoint, with
strictly increasing starts. -/
theorem C10_theorem (raw : Bytes) :
    ((make_editable_for_xml raw).runs.map (·.run_id) =
        List.range (make_editable_for_xml raw).runs.length) ∧
      (∀ r ∈ (make_editable_for_xml raw).runs, r.start < r.stop ∧ r.stop ≤ raw.length) ∧
      List.Pairwise (fun r s => r.stop ≤ s.start ∧ r.start < s.start)
        (make_editable_for_xml raw).runs := by
  rw [make_editable_runs]
  have hinv := T_BYTES_finditer_inv raw
  refine ⟨?_, ?_, ?_⟩
  · rw [runsOfMatches_run_id, runsOfMatches_length]
  · intro r hr
    unfold runsOfMatches at hr
    rw [List.mem_map] at hr
    obtain ⟨p, hp, rfl⟩ := hr
    have hpm : p.2 ∈ T_BYTES_finditer raw := by
      have h2 := List.mem_map_of_mem Prod.snd hp
      rwa [List.enum_map_snd] at h2
    exact hinv.1 p.2 hpm
  · unfold runsOfMatches
    rw [List.pairwise_map]
    have h2 : List.Pairwise
        (fun p q : Nat × TMatchM => p.2.stop ≤ q.2.start ∧ p.2.start < q.2.start)
        (T_BYTES_finditer raw).enum := by
      refine (List.pairwise_map (f := (Prod.snd : Nat × TMatchM → TMatchM))
        (R := fun m m' => m.stop ≤ m'.start ∧ m.start < m'.start)).mp ?_
      rw [List.enum_map_snd]
      exact hinv.2
    exact h2.imp (fun hpq => hpq)

/-! ### Slicing lemmas for the placeholder span arithmetic -/

theorem sub_append_right (t J : List α) (a b : Nat) (h : t.length ≤ a) :
    sub (t ++ J) a b = sub J (a - t.length) (b - t.length) := by
  unfold sub
  rw [List.drop_append_eq_append_drop, List.drop_eq_nil_of_le h, List.nil_append]
  congr 1
  omega

theorem sub_append_split (t J : List α) (a b : Nat) (ha : a ≤ t.length) :
    sub (t ++ J) a b = sub t a (min t.length b) ++ sub J 0 (b - t.length) := by
  unfold sub
  rw [List.drop_append_eq_append_drop, List.take_append_eq_append_take]
  have hz : a - t.length = 0 := by omega
  rw [hz, List.length_drop]
  congr 1
  · rw [List.take_eq_take, List.length_drop]
    omega
  · congr 1
    omega

theorem sub_nil (a b : Nat) : sub ([] : List α) a b = [] := by
  simp [sub]

/-- The contributing-runs loop reproduces exactly the slice of the
concatenated text that the match span covers (stated for any consistent way
`lookup` of reading a run's text from its id). -/
theorem phMapping_slices (lookup : Nat → Codes) :
    ∀ (runs : List RunM) (pos ph_start ph_end : Nat),
      (∀ r ∈ runs, lookup r.run_id = r.text) → ph_start ≤ ph_end →
      ((phMapping runs pos ph_start ph_end).map fun seg =>
          sub (lookup seg.run_id) seg.start_in_run seg.end_in_run).flatten =
        sub ((runs.map (·.text)).flatten) (ph_start - pos) (ph_end - pos)
  | [], pos, ph_start, ph_end, _, _ => by simp [phMapping, sub]
  | r :: rest, pos, ph_start, ph_end, hlook, hse => by
    have hr : lookup r.run_id = r.text := hlook r (by simp)
    have hrest : ∀ x ∈ rest, lookup x.run_id = x.text :=
      fun x hx => hlook x (by simp [hx])
    rw [phMapping]
    simp only [List.map_cons, List.flatten_cons]
    by_cases hskip : pos + r.text.length ≤ ph_start
    · rw [if_pos hskip]
      rw [phMapping_slices lookup rest (pos + r.text.length) ph_start ph_end hrest hse]
      rw [sub_append_right _ _ _ _ (by omega)]
      congr 1 <;> omega
    · rw [if_neg hskip]
      by_cases hbrk : ph_end ≤ pos
      · rw [if_pos hbrk]
        have hz : ph_end - pos = 0 := by omega
        simp [sub, hz]
      · rw [if_neg hbrk]
        simp only [List.map_cons, List.flatten_cons, hr]
        rw [phMapping_slices lookup rest (pos + r.text.length) ph_start ph_end hrest hse]
        have e1 : ph_start - (pos + r.text.length) = 0 := by omega
        have e2 : ph_end - (pos + r.text.length) = ph_end - pos - r.text.length := by
          omega
        rw [e1, e2, sub_append_split _ _ _ _ (by omega)]

/-! ### Bounds of placeholder matches -/

theorem dblScan_le : ∀ (v : Codes) (k : Nat), dblScan v = some k → 2 ≤ k ∧ k ≤ v.length
  | c :: rest, k, h => by
    unfold dblScan at h
    by_cases h1 : c = 125 ∧ rest.head? = some 125
    · rw [if_pos h1] at h
      cases h
      have : rest ≠ [] := by
        intro he
        rw [he] at h1
        cases h1.2
      have : 0 < rest.length := List.length_pos.mpr this
      simp only [List.length_cons]
      omega
    · rw [if_neg h1] at h
      by_cases h2 : c = 10
      · rw [if_pos h2] at h
        cases h
      · rw [if_neg h2] at h
        rw [Option.map_eq_some'] at h
        obtain ⟨k', hk', rfl⟩ := h
        have := dblScan_le rest k' hk'
        simp only [List.length_cons]
        omega
  | [], k, h => by cases h

theorem sglBrace_le {u : Codes} {L : Nat} (h : sglBrace u = some L) :
    2 ≤ L ∧ L ≤ u.length := by
  unfold sglBrace at h
  split at h
  next b rest =>
    split at h
    · simp only [] at h
      split at h
      next hc =>
        cases h
        have h4 : rest.drop (rest.takeWhile fun c => c ≠ 123 ∧ c ≠ 125).length ≠ [] := by
          intro he
          rw [he] at hc
          cases hc.2
        have h5 : (rest.takeWhile fun c => c ≠ 123 ∧ c ≠ 125).length < rest.length := by
          by_contra hle
          exact h4 (List.drop_eq_nil_of_le (by omega))
        simp only [List.length_cons]
        omega
      next => cases h
    · cases h
  next => cases h

theorem phMatchLen_spec {u : Codes} {L : Nat} (h : phMatchLen u = some L) :
    0 < L ∧ L ≤ u.length := by
  unfold phMatchLen at h
  split at h
  next c1 c2 rest =>
    split at h
    · split at h
      next k hk =>
        cases h
        have := dblScan_le rest k hk
        simp only [List.length_cons]
        omega
      next => exact ⟨by have := sglBrace_le h; omega, (sglBrace_le h).2⟩
    · exact ⟨by have := sglBrace_le h; omega, (sglBrace_le h).2⟩
  next => exact ⟨by have := sglBrace_le h; omega, (sglBrace_le h).2⟩

theorem phNext_spec {s : Codes} {i : Nat} {a : Nat × Nat} {e : Nat}
    (h : phNext s i = some (a, e)) :
    a.1 = i ∧ a.2 = e ∧ i < e ∧ e ≤ s.length := by
  simp only [phNext] at h
  split at h
  next L hL =>
    cases h
    have hs := phMatchLen_spec hL
    rw [List.length_drop] at hs
    exact ⟨rfl, rfl, by omega, by omega⟩
  next => cases h

/-- All placeholder matches: spans are nonempty, in bounds, disjoint,
with strictly increasing starts (leftmost non-overlapping scan order). -/
theorem PH_finditer_inv (s : Codes) :
    (∀ p ∈ PH_finditer s, p.1 < p.2 ∧ p.2 ≤ s.length) ∧
      List.Pairwise (fun p q => p.2 ≤ q.1 ∧ p.1 < q.1) (PH_finditer s) := by
  have h := @scanG_inv _ (phNext s) s.length Prod.fst Prod.snd
    (fun i a e hx => phNext_spec hx) (s.length + 1) 0
  exact ⟨fun p hp => ⟨(h.1 p hp).2.1, (h.1 p hp).2.2⟩, h.2⟩

/-! ### `dict` lookup lemmas -/

theorem dictGet_foldl [DecidableEq α] (k : α) :
    ∀ (m : List (α × β)) (init : Option β),
      m.foldl (fun acc p => if p.1 = k then some p.2 else acc) init =
        ((dictGet m k).rec init some : Option β)
  | [], init => rfl
  | x :: m, init => by
    show m.foldl _ (if x.1 = k then some x.2 else init) = _
    rw [dictGet_foldl k m (if x.1 = k then some x.2 else init)]
    have hx : dictGet (x :: m) k =
        ((dictGet m k).rec (if x.1 = k then some x.2 else none) some : Option β) := by
      show m.foldl _ (if x.1 = k then some x.2 else none) = _
      rw [dictGet_foldl k m (if x.1 = k then some x.2 else none)]
    rw [hx]
    cases dictGet m k
    · by_cases hxk : x.1 = k <;> simp [hxk]
    · rfl

theorem dictGet_cons [DecidableEq α] (k : α) (x : α × β) (m : List (α × β)) :
    dictGet (x :: m) k =
      ((dictGet m k).rec (if x.1 = k then some x.2 else none) some : Option β) := by
  show m.foldl _ (if x.1 = k then some x.2 else none) = _
  rw [dictGet_foldl k m (if x.1 = k then some x.2 else none)]

theorem dictGet_eq_none [DecidableEq α] (k : α) :
    ∀ (m : List (α × β)), k ∉ m.map (·.1) → dictGet m k = none
  | [], _ => rfl
  | x :: m, h => by
    rw [dictGet_cons]
    have h1 : dictGet m k = none := dictGet_eq_none k m (by simp at h; simp [h])
    rw [h1]
    have h2 : ¬ x.1 = k := by simp at h; exact fun he => h.1 he.symm
    simp [h2]

theorem dictGet_mem [DecidableEq α] (k : α) (v : β) :
    ∀ (m : List (α × β)), (m.map (·.1)).Nodup → (k, v) ∈ m → dictGet m k = some v
  | x :: m, hnd, hmem => by
    rw [dictGet_cons]
    rcases List.mem_cons.mp hmem with he | hm
    · subst he
      have hk : k ∉ m.map (·.1) := by
        simp only [List.map_cons, List.nodup_cons] at hnd
        exact hnd.1
      rw [dictGet_eq_none k m hk]
      simp
    · have hnd2 : (m.map (·.1)).Nodup := by
        simp only [List.map_cons, List.nodup_cons] at hnd
        exact hnd.2
      have hr := dictGet_mem k v m hnd2 hm
      rw [hr]

/-! ### The placeholder-reconstruction invariant (C2) -/

theorem make_editable_placeholders (raw : Bytes) :
    (make_editable_for_xml raw).placeholders =
      (PH_finditer (((runsOfMatches raw (T_BYTES_finditer raw)).map (·.text)).flatten)).map
        fun sp =>
          { placeholder :=
              sub (((runsOfMatches raw (T_BYTES_finditer raw)).map (·.text)).flatten)
                sp.1 sp.2
            concat_offset := sp.1
            runs := phMapping (runsOfMatches raw (T_BYTES_finditer raw)) 0 sp.1 sp.2 } := rfl

theorem run_text_by_id_of_mem {runs : List RunM} (hnd : (runs.map (·.run_id)).Nodup)
    {r : RunM} (hr : r ∈ runs) : run_text_by_id runs r.run_id = r.text := by
  unfold run_text_by_id
  have hmem : (r.run_id, r.text) ∈ runs.map fun x => (x.run_id, x.text) :=
    List.mem_map_of_mem _ hr
  have hnd' : (((runs.map fun x => (x.run_id, x.text)).map (·.1)).Nodup) := by
    rw [List.map_map]
    exact hnd
  rw [dictGet_mem _ _ _ hnd' hmem]
  rfl

theorem runsOfMatches_nodup_ids (raw : Bytes) (ms : List TMatchM) :
    ((runsOfMatches raw ms).map (·.run_id)).Nodup := by
  rw [runsOfMatches_run_id]
  exact List.nodup_range _

/-- Every placeholder of `_make_editable_for_xml` reconstructs to its token. -/
theorem placeholder_reconstruct (raw : Bytes) (ph : PlaceholderM)
    (hph : ph ∈ (make_editable_for_xml raw).placeholders) :
    reconstructSpan (make_editable_for_xml raw).runs ph.runs = ph.placeholder := by
  rw [make_editable_placeholders] at hph
  rw [List.mem_map] at hph
  obtain ⟨sp, hsp, rfl⟩ := hph
  have hinv :=
    PH_finditer_inv (((runsOfMatches raw (T_BYTES_finditer raw)).map (·.text)).flatten)
  have hb := hinv.1 sp hsp
  have hnd := runsOfMatches_nodup_ids raw (T_BYTES_finditer raw)
  rw [make_editable_runs]
  unfold reconstructSpan
  rw [phMapping_slices (run_text_by_id (runsOfMatches raw (T_BYTES_finditer raw)))
    _ 0 sp.1 sp.2 (fun r hr => run_text_by_id_of_mem hnd hr) (le_of_lt hb.1)]
  simp

/-- C2: for every placeholder emitted by `_make_editable_for_xml`, slicing the
contributing-run segments out of the run texts (looked up by `run_id`) and
concatenating them in listed order reproduces exactly the token string. -/
theorem C2_theorem (raw : Bytes) (ph : PlaceholderM)
    (hph : ph ∈ (make_editable_for_xml raw).placeholders) :
    reconstructSpan (make_editable_for_xml raw).runs ph.runs = ph.placeholder :=
  placeholder_reconstruct raw ph hph

/-- Witness for C2 on a concrete entry: a placeholder `{N}` in one `t` run. -/
theorem C2_witness :
    ∃ ph ∈ (make_editable_for_xml (codes "<t>\x7bN\x7d</t>")).placeholders,
      reconstructSpan (make_editable_for_xml (codes "<t>\x7bN\x7d</t>")).runs ph.runs =
          ph.placeholder ∧
        ph.placeholder = codes "\x7bN\x7d" := by
  refine ⟨PlaceholderM.mk (codes "\x7bN\x7d") 0 [SegM.mk 0 0 3], by decide, ?_, by decide⟩
  exact C2_theorem (codes "<t>\x7bN\x7d</t>") _ (by decide)

/-! ### Segment well-formedness of the contributing-runs loop (C8) -/

theorem phMapping_seg_bounds (lookup : Nat → Codes) :
    ∀ (runs : List RunM) (pos ph_start ph_end : Nat),
      (∀ r ∈ runs, lookup r.run_id = r.text) → ph_start < ph_end →
      ∀ seg ∈ phMapping runs pos ph_start ph_end,
        seg.start_in_run ≤ seg.end_in_run ∧
          seg.end_in_run ≤ (lookup seg.run_id).length ∧
          (seg.start_in_run = seg.end_in_run → (lookup seg.run_id).length = 0)
  | [], _, _, _, _, _ => by simp [phMapping]
  | r :: rest, pos, ph_start, ph_end, hlook, hlt => by
    have hr : lookup r.run_id = r.text := hlook r (by simp)
    have hrest := fun x hx => hlook x (List.mem_cons_of_mem _ hx)
    intro seg hseg
    rw [phMapping] at hseg
    by_cases hskip : pos + r.text.length ≤ ph_start
    · rw [if_pos hskip] at hseg
      exact phMapping_seg_bounds lookup rest (pos + r.text.length) ph_start ph_end
        hrest hlt seg hseg
    · rw [if_neg hskip] at hseg
      by_cases hbrk : ph_end ≤ pos
      · rw [if_pos hbrk] at hseg
        cases hseg
      · rw [if_neg hbrk] at hseg
        rcases List.mem_cons.mp hseg with he | hm
        · subst he
          dsimp only
          rw [hr]
          omega
        · exact phMapping_seg_bounds lookup rest (pos + r.text.length) ph_start ph_end
            hrest hlt seg hm

theorem phMapping_ids_sublist :
    ∀ (runs : List RunM) (pos ph_start ph_end : Nat),
      ((phMapping runs pos ph_start ph_end).map (·.run_id)).Sublist
        (runs.map (·.run_id))
  | [], _, _, _ => by simp [phMapping]
  | r :: rest, pos, ph_start, ph_end => by
    rw [phMapping]
    by_cases hskip : pos + r.text.length ≤ ph_start
    · rw [if_pos hskip]
      exact (phMapping_ids_sublist rest _ _ _).cons _
    · rw [if_neg hskip]
      by_cases hbrk : ph_end ≤ pos
      · rw [if_pos hbrk]
        simp
      · rw [if_neg hbrk]
        simp only [List.map_cons]
        exact (phMapping_ids_sublist rest _ _ _).cons₂ _

theorem sub_length_of_le {t : Codes} {s e : Nat} (hse : s ≤ e) (het : e ≤ t.length) :
    (sub t s e).length = e - s := by
  unfold sub
  rw [List.length_take, List.length_drop]
  omega

/-- C8 (amended): every contributing-run segment of an emitted placeholder is
well formed — `start_in_run ≤ end_in_run`, bounded by the run's text, and a
zero-length segment occurs only for a run whose text is empty (empty runs
strictly inside the span are kept, not skipped); the segments reference runs
in strictly increasing `run_id` order; and the segment lengths sum exactly to
the token's length. -/
theorem C8_theorem (raw : Bytes) (ph : PlaceholderM)
    (hph : ph ∈ (make_editable_for_xml raw).placeholders) :
    (∀ seg ∈ ph.runs,
        seg.start_in_run ≤ seg.end_in_run ∧
          seg.end_in_run ≤
            (run_text_by_id (make_editable_for_xml raw).runs seg.run_id).length ∧
          (seg.start_in_run = seg.end_in_run →
            run_text_by_id (make_editable_for_xml raw).runs seg.run_id = [])) ∧
      List.Pairwise (· < ·) (ph.runs.map (·.run_id)) ∧
      (ph.runs.map fun seg => seg.end_in_run - seg.start_in_run).sum =
        ph.placeholder.length := by
  rw [make_editable_placeholders] at hph
  rw [List.mem_map] at hph
  obtain ⟨sp, hsp, rfl⟩ := hph
  have hnd := runsOfMatches_nodup_ids raw (T_BYTES_finditer raw)
  have hinv :=
    PH_finditer_inv (((runsOfMatches raw (T_BYTES_finditer raw)).map (·.text)).flatten)
  have hb := hinv.1 sp hsp
  have hlook : ∀ r ∈ runsOfMatches raw (T_BYTES_finditer raw),
      run_text_by_id (runsOfMatches raw (T_BYTES_finditer raw)) r.run_id = r.text :=
    fun r hr => run_text_by_id_of_mem hnd hr
  refine ⟨?_, ?_, ?_⟩
  · intro seg hseg
    have hB := phMapping_seg_bounds (run_text_by_id (runsOfMatches raw (T_BYTES_finditer raw)))
      (runsOfMatches raw (T_BYTES_finditer raw)) 0 sp.1 sp.2 hlook hb.1 seg hseg
    rw [make_editable_runs]
    exact ⟨hB.1, hB.2.1, fun he => List.eq_nil_of_length_eq_zero (hB.2.2 he)⟩
  · have hsub := phMapping_ids_sublist (runsOfMatches raw (T_BYTES_finditer raw)) 0 sp.1 sp.2
    have hpw : List.Pairwise (· < ·)
        ((runsOfMatches raw (T_BYTES_finditer raw)).map (·.run_id)) := by
      rw [runsOfMatches_run_id]
      exact List.pairwise_lt_range _
    exact hpw.sublist hsub
  · have hslice : ∀ seg ∈ phMapping (runsOfMatches raw (T_BYTES_finditer raw)) 0 sp.1 sp.2,
        (sub (run_text_by_id (runsOfMatches raw (T_BYTES_finditer raw)) seg.run_id)
            seg.start_in_run seg.end_in_run).length =
          seg.end_in_run - seg.start_in_run := by
      intro seg hseg
      have hB := phMapping_seg_bounds
        (run_text_by_id (runsOfMatches raw (T_BYTES_finditer raw)))
        (runsOfMatches raw (T_BYTES_finditer raw)) 0 sp.1 sp.2 hlook hb.1 seg hseg
      exact sub_length_of_le hB.1 hB.2.1
    have h1 : ((phMapping (runsOfMatches raw (T_BYTES_finditer raw)) 0 sp.1 sp.2).map
        fun seg => seg.end_in_run - seg.start_in_run) =
        ((phMapping (runsOfMatches raw (T_BYTES_finditer raw)) 0 sp.1 sp.2).map
          fun seg =>
            (sub (run_text_by_id (runsOfMatches raw (T_BYTES_finditer raw)) seg.run_id)
              seg.start_in_run seg.end_in_run).length) :=
      List.map_congr_left (fun seg hseg => (hslice seg hseg).symm)
    dsimp only
    rw [h1]
    have h2 := congrArg List.length
      (phMapping_slices (run_text_by_id (runsOfMatches raw (T_BYTES_finditer raw)))
        (runsOfMatches raw (T_BYTES_finditer raw)) 0 sp.1 sp.2 hlook (le_of_lt hb.1))
    rw [List.length_flatten, List.map_map] at h2
    simpa using h2

/-- C8 counterexample to the claim as stated: over the runs `"\x7b"`, `""`,
`"x\x7d"` the placeholder `{x}` is emitted with the zero-length segment
`(run_id 1, 0, 0)` for the empty middle run — a segment with
`end_in_run = start_in_run`, which the claim asserts never occurs. -/
theorem C8_counterexample :
    ((make_editable_for_xml (codes "<w:t>\x7b</w:t><w:t></w:t><w:t>x\x7d</w:t>")).placeholders.map
        fun p => p.runs) =
      [[SegM.mk 0 0 1, SegM.mk 1 0 0, SegM.mk 2 0 2]] ∧
      ¬ (SegM.mk 1 0 0).start_in_run < (SegM.mk 1 0 0).end_in_run := by
  decide

/-- Witness for the amended C8 on the same concrete entry. -/
theorem C8_witness :
    ∃ ph ∈ (make_editable_for_xml (codes "<w:t>\x7b</w:t><w:t></w:t><w:t>x\x7d</w:t>")).placeholders,
      List.Pairwise (· < ·) (ph.runs.map (·.run_id)) ∧
        (ph.runs.map fun seg => seg.end_in_run - seg.start_in_run).sum =
          ph.placeholder.length := by
  refine ⟨PlaceholderM.mk (codes "\x7bx\x7d") 0 [SegM.mk 0 0 1, SegM.mk 1 0 0, SegM.mk 2 0 2],
    by decide, ?_, ?_⟩
  · exact (C8_theorem (codes "<w:t>\x7b</w:t><w:t></w:t><w:t>x\x7d</w:t>") _ (by decide)).2.1
  · exact (C8_theorem (codes "<w:t>\x7b</w:t><w:t></w:t><w:t>x\x7d</w:t>") _ (by decide)).2.2

/-! ### Shape of placeholder matches (C7) -/

theorem drop_takeWhile_length (p : α → Bool) :
    ∀ l : List α, l.drop (l.takeWhile p).length = l.dropWhile p
  | [] => rfl
  | x :: t => by
    by_cases hx : p x
    · simp only [List.takeWhile_cons, List.dropWhile_cons, hx, if_true, List.length_cons,
        List.drop_succ_cons]
      exact drop_takeWhile_length p t
    · simp [List.takeWhile_cons, List.dropWhile_cons, hx]

/-- Every emitted element of a generic scan arises from a successful `next`. -/
theorem scanG_mem_src {next : Nat → Option (α × Nat)} {len : Nat} :
    ∀ (fuel i : Nat), ∀ a ∈ scanG next len i fuel, ∃ j e, next j = some (a, e)
  | 0, i => by simp [scanG_zero]
  | fuel + 1, i => by
    by_cases hi : i < len
    · cases hn : next i with
      | none =>
        rw [scanG_step_none hi hn]
        exact scanG_mem_src fuel (i + 1)
      | some ae =>
        obtain ⟨a, e⟩ := ae
        by_cases hie : i < e
        · rw [scanG_step_some hi hn hie]
          intro b hb
          rcases List.mem_cons.mp hb with hb | hb
          · subst hb
            exact ⟨i, e, hn⟩
          · exact scanG_mem_src fuel e b hb
        · rw [scanG_step_some_adv hi hn hie]
          intro b hb
          rcases List.mem_cons.mp hb with hb | hb
          · subst hb
            exact ⟨i, e, hn⟩
          · exact scanG_mem_src fuel (i + 1) b hb
    · rw [scanG_ge next _ hi]
      simp

/-- Structure of a successful `\{\{.*?\}\}` tail scan. -/
theorem dblScan_chars :
    ∀ (v : Codes) (k : Nat), dblScan v = some k →
      ∃ inner rest, v = inner ++ [125, 125] ++ rest ∧ k = inner.length + 2 ∧ 10 ∉ inner
  | c :: rest, k, h => by
    unfold dblScan at h
    by_cases h1 : c = 125 ∧ rest.head? = some 125
    · rw [if_pos h1] at h
      cases h
      obtain ⟨rfl, h2⟩ := h1
      match rest, h2 with
      | c2 :: rest', h2 =>
        simp only [List.head?_cons, Option.some.injEq] at h2
        subst h2
        exact ⟨[], rest', rfl, rfl, by simp⟩
    · rw [if_neg h1] at h
      by_cases h2 : c = 10
      · rw [if_pos h2] at h
        cases h
      · rw [if_neg h2] at h
        rw [Option.map_eq_some'] at h
        obtain ⟨k', hk', rfl⟩ := h
        obtain ⟨inner, rest', he, hk, h10⟩ := dblScan_chars rest k' hk'
        exact ⟨c :: inner, rest', by simp [he], by simp [hk], by
          simp only [List.mem_cons, not_or]
          exact ⟨fun hc => h2 hc.symm, h10⟩⟩
  | [], k, h => by cases h

/-- Structure of a successful `\{[^{}]+\}` match. -/
theorem sglBrace_chars {u : Codes} {L : Nat} (h : sglBrace u = some L) :
    ∃ content rest, u = [123] ++ content ++ [125] ++ rest ∧ L = content.length + 2 ∧
      content ≠ [] ∧ (123 : Nat) ∉ content ∧ (125 : Nat) ∉ content := by
  unfold sglBrace at h
  split at h
  next b rest =>
    split at h
    next hb =>
      subst hb
      simp only [] at h
      split at h
      next hc =>
        cases h
        obtain ⟨hne, hhd⟩ := hc
        set run := rest.takeWhile (fun c => c ≠ 123 ∧ c ≠ 125) with hrun
        have hsplit : run ++ rest.drop run.length = rest := by
          rw [hrun, drop_takeWhile_length]
          exact List.takeWhile_append_dropWhile _ _
        match hd : rest.drop run.length, hhd with
        | c2 :: rest', hhd =>
          simp only [hd, List.head?_cons, Option.some.injEq] at hhd
          subst hhd
          refine ⟨run, rest', ?_, by omega, hne, ?_, ?_⟩
          · rw [← hsplit, hd]
            simp
          · intro hm
            have := List.mem_takeWhile_imp (p := fun c => c ≠ 123 ∧ c ≠ 125) (hrun ▸ hm)
            simp at this
          · intro hm
            have := List.mem_takeWhile_imp (p := fun c => c ≠ 123 ∧ c ≠ 125) (hrun ▸ hm)
            simp at this
      next => cases h
    next => cases h
  next => cases h

/-- Structure of any placeholder-regex match: a newline-free double-braced
token, or a single-braced token whose content merely avoids braces. -/
theorem phMatchLen_chars {u : Codes} {L : Nat} (h : phMatchLen u = some L) :
    (∃ inner rest, u = [123, 123] ++ inner ++ [125, 125] ++ rest ∧
        L = inner.length + 4 ∧ (10 : Nat) ∉ inner) ∨
      (∃ content rest, u = [123] ++ content ++ [125] ++ rest ∧ L = content.length + 2 ∧
        content ≠ [] ∧ (123 : Nat) ∉ content ∧ (125 : Nat) ∉ content) := by
  unfold phMatchLen at h
  split at h
  next c1 c2 rest =>
    split at h
    next hcc =>
      obtain ⟨rfl, rfl⟩ := hcc
      split at h
      next k hk =>
        cases h
        obtain ⟨inner, rest', he, hk2, h10⟩ := dblScan_chars rest k hk
        exact Or.inl ⟨inner, rest', by simp [he], by simp [hk2]; omega, h10⟩
      next => exact Or.inr (sglBrace_chars h)
    next => exact Or.inr (sglBrace_chars h)
  next => exact Or.inr (sglBrace_chars h)

/-- C7 (amended): every match of the placeholder regex is either a
double-braced token whose inner content contains no newline (code 10), or a
single-braced token whose content is nonempty and merely brace-free — a
newline or carriage return inside a single-braced token is *not* excluded;
and the matches are non-overlapping with strictly increasing starts
(leftmost scan order). -/
theorem C7_theorem (s : Codes) :
    (∀ p ∈ PH_finditer s,
        (∃ inner, sub s p.1 p.2 = [123, 123] ++ inner ++ [125, 125] ∧
            (10 : Nat) ∉ inner) ∨
          (∃ content, sub s p.1 p.2 = [123] ++ content ++ [125] ∧ content ≠ [] ∧
            (123 : Nat) ∉ content ∧ (125 : Nat) ∉ content)) ∧
      List.Pairwise (fun p q => p.2 ≤ q.1 ∧ p.1 < q.1) (PH_finditer s) := by
  constructor
  · intro p hp
    obtain ⟨j, e, hj⟩ := scanG_mem_src (s.length + 1) 0 p hp
    simp only [phNext] at hj
    split at hj
    next L hL =>
      cases hj
      have hu := phMatchLen_chars hL
      rcases hu with ⟨inner, rest, he, hlen, h10⟩ | ⟨content, rest, he, hlen, hne, h123, h125⟩
      · left
        refine ⟨inner, ?_, h10⟩
        show (s.drop j).take (j + L - j) = _
        have hL' : j + L - j = ([123, 123] ++ inner ++ [125, 125]).length := by
          simp only [List.length_append, List.length_cons, List.length_nil]
          omega
        have he' : s.drop j = ([123, 123] ++ inner ++ [125, 125]) ++ rest := by
          simp [he]
        rw [hL', he']
        exact List.take_left _ _
      · right
        refine ⟨content, ?_, hne, h123, h125⟩
        show (s.drop j).take (j + L - j) = _
        have hL' : j + L - j = ([123] ++ content ++ [125]).length := by
          simp only [List.length_append, List.length_cons, List.length_nil]
          omega
        have he' : s.drop j = ([123] ++ content ++ [125]) ++ rest := by
          simp [he]
        rw [hL', he']
        exact List.take_left _ _
    next => cases hj
  · exact (PH_finditer_inv s).2

/-- C7 counterexample to the claim as stated: the logical text `{a\nb}`
yields the single-braced placeholder `{a\nb}`, whose content contains the
newline the claim says the pattern excludes. -/
theorem C7_counterexample :
    PH_finditer (codes "\x7ba\nb\x7d") = [(0, 5)] ∧
      sub (codes "\x7ba\nb\x7d") 0 5 = codes "\x7ba\nb\x7d" ∧ (10 : Nat) ∈ codes "\x7ba\nb\x7d" := by
  decide

/-- Witness for the amended C7 at a concrete logical text. -/
theorem C7_witness :
    (∃ inner, sub (codes "\x7b\x7ba\x7d\x7d") 0 5 = [123, 123] ++ inner ++ [125, 125] ∧
        (10 : Nat) ∉ inner) ∨
      (∃ content, sub (codes "\x7b\x7ba\x7d\x7d") 0 5 = [123] ++ content ++ [125] ∧ content ≠ [] ∧
        (123 : Nat) ∉ content ∧ (125 : Nat) ∉ content) :=
  (C7_theorem (codes "\x7b\x7ba\x7d\x7d")).1 (0, 5) (by decide)

/-! ### The empty-edit round trip (C1) and opaque passthrough (C9) -/

theorem foldl_id_of {f : β → α → β} :
    ∀ (l : List α) (b : β), (∀ x ∈ l, ∀ acc, f acc x = acc) → l.foldl f b = b
  | [], _, _ => rfl
  | x :: l, b, h => by
    rw [List.foldl_cons, h x (by simp) b]
    exact foldl_id_of l b (fun y hy => h y (by simp [hy]))

/-- Fresh extraction data never triggers auto-detected edits: every
placeholder reconstructs to its own token. -/
theorem auto_detect_make_editable (raw : Bytes) :
    auto_detect_edits_from_runs (make_editable_for_xml raw) = [] := by
  unfold auto_detect_edits_from_runs
  split
  · rfl
  · apply foldl_id_of
    intro ph hph acc
    have hrec := placeholder_reconstruct raw ph hph
    simp [hrec]

/-- With no `_edits` and unmodified run texts, `json_to_xml` writes every
entry's original bytes. -/
theorem json_to_xml_no_edits (parser : Bytes → Option (List Codes))
    (serializer : Bytes → List Codes → Bytes) (archive : List ArchiveEntryM)
    (hbytes : ∀ a ∈ archive, ∀ x ∈ a.bytes, x < 256) :
    json_to_xml parser serializer { entries := convert_to_json archive, edits := [] } =
      archive.map fun a => (a.name, a.bytes) := by
  unfold json_to_xml convert_to_json
  rw [List.map_map]
  apply List.map_congr_left
  intro a ha
  have hrt : b64decode (b64encode a.bytes) = a.bytes :=
    b64decode_b64encode a.bytes (hbytes a ha)
  by_cases hx : isXmlName a.name
  · simp only [Function.comp, hx, if_pos, hrt, auto_detect_make_editable]
    rfl
  · simp only [Function.comp, hx, if_neg, hrt]
    rfl


theorem json_to_xml_keys (parser : Bytes → Option (List Codes))
    (serializer : Bytes → List Codes → Bytes) (doc : JsonDocM) :
    (json_to_xml parser serializer doc).map (·.1) = doc.entries.map (·.1) := by
  unfold json_to_xml
  rw [List.map_map]
  apply List.map_congr_left
  intro p _
  dsimp only [Function.comp]
  split
  · split
    · split
      · split <;> rfl
      · rfl
    · rfl
  · rfl

/-- A non-XML-named entry is written back as its decoded original bytes. -/
theorem json_to_xml_nonxml (parser : Bytes → Option (List Codes))
    (serializer : Bytes → List Codes → Bytes) (doc : JsonDocM) (name : Codes)
    (entry : EntryM) (hmem : (name, entry) ∈ doc.entries) (hxml : isXmlName name = false) :
    (name, b64decode entry.content_b64) ∈ json_to_xml parser serializer doc := by
  unfold json_to_xml
  apply List.mem_map.mpr
  refine ⟨(name, entry), hmem, ?_⟩
  cases he : entry.editable with
  | none => simp only [he]
  | some ed => simp only [he, hxml, Bool.false_eq_true, if_false]

theorem convert_keys (archive : List ArchiveEntryM) :
    (convert_to_json archive).map (·.1) = archive.map (·.name) := by
  unfold convert_to_json
  rw [List.map_map]
  rfl

theorem full_cycle_names (parser : Bytes → Option (List Codes))
    (serializer : Bytes → List Codes → Bytes) (now : List Nat)
    (edits : List (Codes × List (Codes × Codes))) (archive : List ArchiveEntryM) :
    (full_cycle parser serializer now edits archive).map (·.name) =
      archive.map (·.name) := by
  unfold full_cycle xml_to_docx convert_to_json
  dsimp only
  rw [List.map_map, List.map_map]
  rfl

/-- C1: a full conversion cycle with an empty edit set (no `_edits` mapping,
run texts as extracted) reproduces, for every entry, its original bytes. -/
theorem C1_theorem (parser : Bytes → Option (List Codes))
    (serializer : Bytes → List Codes → Bytes) (now : List Nat)
    (archive : List ArchiveEntryM)
    (hnd : (archive.map (·.name)).Nodup)
    (hbytes : ∀ a ∈ archive, ∀ x ∈ a.bytes, x < 256) :
    (full_cycle parser serializer now [] archive).map (fun a => (a.name, a.bytes)) =
      archive.map fun a => (a.name, a.bytes) := by
  unfold full_cycle xml_to_docx
  dsimp only
  rw [json_to_xml_no_edits parser serializer archive hbytes]
  unfold convert_to_json
  rw [List.map_map, List.map_map]
  apply List.map_congr_left
  intro a ha
  have hrt : b64decode (b64encode a.bytes) = a.bytes :=
    b64decode_b64encode a.bytes (hbytes a ha)
  have hkeys : (((archive.map fun x => (x.name, x.bytes)).map (·.1)).Nodup) := by
    rw [List.map_map]
    exact hnd
  have hd : dictGet (archive.map fun x => (x.name, x.bytes)) a.name = some a.bytes :=
    dictGet_mem _ _ _ hkeys (List.mem_map_of_mem _ ha)
  dsimp only [Function.comp]
  rw [hd, hrt]
  rfl

/-- Witness for C1: a two-entry archive (a `t`-run XML part containing a
placeholder, and an opaque binary part) survives an empty-edit cycle
byte-for-byte. -/
theorem C1_witness :
    (full_cycle (fun _ => none) (fun raw _ => raw) [] []
          [ArchiveEntryM.mk (codes "word/document.xml") (codes "<w:t>\x7bN\x7d</w:t>")
              (ZipInfoM.mk 8 [1980, 1, 1, 0, 0, 0] 0 0),
            ArchiveEntryM.mk (codes "media/image1.bin") [0, 255, 7]
              (ZipInfoM.mk 0 [1980, 1, 1, 0, 0, 0] 0 0)]).map (fun a => (a.name, a.bytes)) =
      [(codes "word/document.xml", codes "<w:t>\x7bN\x7d</w:t>"),
        (codes "media/image1.bin", [0, 255, 7])] := by
  rw [C1_theorem (fun _ => none) (fun raw _ => raw) [] _ (by decide) (by decide)]
  decide

/-- C9: an entry whose name does not end in `.xml` (case-insensitively) is
written back byte-identically by a full cycle, whatever the edit set does to
other entries: named lookup in the final archive returns the original bytes. -/
theorem C9_theorem (parser : Bytes → Option (List Codes))
    (serializer : Bytes → List Codes → Bytes) (now : List Nat)
    (edits : List (Codes × List (Codes × Codes))) (archive : List ArchiveEntryM)
    (hnd : (archive.map (·.name)).Nodup)
    (a : ArchiveEntryM) (ha : a ∈ archive) (hxml : isXmlName a.name = false)
    (hb : ∀ x ∈ a.bytes, x < 256) :
    dictGet
        ((full_cycle parser serializer now edits archive).map fun e => (e.name, e.bytes))
        a.name = some a.bytes := by
  have hrt : b64decode (b64encode a.bytes) = a.bytes := b64decode_b64encode a.bytes hb
  apply dictGet_mem
  · rw [List.map_map]
    have : ((fun p => p.1) ∘ fun e : ArchiveEntryM => (e.name, e.bytes)) =
        fun e : ArchiveEntryM => e.name := rfl
    rw [this, full_cycle_names]
    exact hnd
  · -- the final entry for `a` carries its original bytes
    have hfiles : dictGet
        (json_to_xml parser serializer
          { entries := convert_to_json archive, edits := edits }) a.name =
        some a.bytes := by
      apply dictGet_mem
      · have hk := json_to_xml_keys parser serializer
          { entries := convert_to_json archive, edits := edits }
        rw [show ((json_to_xml parser serializer
            { entries := convert_to_json archive, edits := edits }).map fun p => p.1) =
            (json_to_xml parser serializer
              { entries := convert_to_json archive, edits := edits }).map (·.1) from rfl,
          hk]
        show ((convert_to_json archive).map (·.1)).Nodup
        rw [convert_keys]
        exact hnd
      · have hmem : (a.name, EntryM.mk (b64encode a.bytes) a.zipinfo
            (if isXmlName a.name then some (make_editable_for_xml a.bytes) else none)) ∈
            ({ entries := convert_to_json archive, edits := edits } : JsonDocM).entries :=
          List.mem_map_of_mem _ ha
        have h2 := json_to_xml_nonxml parser serializer
          { entries := convert_to_json archive, edits := edits } a.name _ hmem hxml
        simpa [hrt] using h2
    apply List.mem_map.mpr
    refine ⟨ArchiveEntryM.mk a.name a.bytes
      (ZipInfoM.mk a.zipinfo.compress_type
        (if a.zipinfo.date_time.length = 6 then a.zipinfo.date_time else now)
        a.zipinfo.external_attr 0), ?_, rfl⟩
    unfold full_cycle xml_to_docx
    apply List.mem_map.mpr
    refine ⟨(a.name, EntryM.mk (b64encode a.bytes) a.zipinfo
      (if isXmlName a.name then some (make_editable_for_xml a.bytes) else none)),
      List.mem_map_of_mem _ ha, ?_⟩
    dsimp only
    rw [hfiles]
    rfl

/-- Witness for C9: the binary entry of a two-entry archive is unchanged even
though the edit set rewrites the XML entry's placeholder. -/
theorem C9_witness :
    dictGet
        ((full_cycle (fun _ => none) (fun raw _ => raw) []
            [(codes "word/document.xml", [(codes "\x7bN\x7d", codes "World")])]
            [ArchiveEntryM.mk (codes "word/document.xml") (codes "<w:t>\x7bN\x7d</w:t>")
                (ZipInfoM.mk 8 [1980, 1, 1, 0, 0, 0] 0 0),
              ArchiveEntryM.mk (codes "media/image1.bin") [0, 255, 7]
                (ZipInfoM.mk 0 [1980, 1, 1, 0, 0, 0] 0 0)]).map fun e => (e.name, e.bytes))
        (codes "media/image1.bin") = some [0, 255, 7] :=
  C9_theorem (fun _ => none) (fun raw _ => raw) []
    [(codes "word/document.xml", [(codes "\x7bN\x7d", codes "World")])]
    [ArchiveEntryM.mk (codes "word/document.xml") (codes "<w:t>\x7bN\x7d</w:t>")
        (ZipInfoM.mk 8 [1980, 1, 1, 0, 0, 0] 0 0),
      ArchiveEntryM.mk (codes "media/image1.bin") [0, 255, 7]
        (ZipInfoM.mk 0 [1980, 1, 1, 0, 0, 0] 0 0)]
    (by decide)
    (ArchiveEntryM.mk (codes "media/image1.bin") [0, 255, 7]
      (ZipInfoM.mk 0 [1980, 1, 1, 0, 0, 0] 0 0))
    (by decide) (by decide) (by decide)

/-! ### Splice behaviour on unresolvable run ids (C5) -/

theorem mapM_none_of_mem {f : α → Option β} :
    ∀ (l : List α), (∃ x ∈ l, f x = none) → l.mapM f = none
  | x :: l, ⟨y, hy, hfy⟩ => by
    rw [List.mapM_cons]
    rcases List.mem_cons.mp hy with he | hm
    · subst he
      rw [hfy]
      rfl
    · cases hfx : f x with
      | none => rfl
      | some v =>
        rw [mapM_none_of_mem l ⟨y, hm, hfy⟩]
        rfl

/-- C5 (amended): when a contributing run's recorded `run_id` cannot be
resolved among the parsed `t` elements, `json_to_xml` silently skips that
placeholder's edit — the element texts are returned unchanged and the loop
continues with the remaining placeholders; the code raises no error (it
defines no `SpliceError`). -/
theorem C5_theorem (runsMeta : List RunM) (file_edits : List (Codes × Codes))
    (ts : List Codes) (ph : PlaceholderM)
    (hseg : ∃ seg ∈ ph.runs, ridToIdx runsMeta ts.length seg.run_id = none) :
    applyPhEdit runsMeta file_edits ts ph = ts := by
  unfold applyPhEdit
  cases hdg : dictGet file_edits ph.placeholder with
  | none => rfl
  | some repl =>
    by_cases hphr : ph.runs = []
    · simp [hphr]
    · have hres : resolveSegs runsMeta ts.length ph.runs = none := by
        unfold resolveSegs
        apply mapM_none_of_mem
        obtain ⟨seg, hmem, hnone⟩ := hseg
        exact ⟨seg, hmem, by rw [hnone]; rfl⟩
      simp [hphr, hres]

/-- C5 counterexample to the claim as stated: the first placeholder's segment
names `run_id 5`, which no parsed element resolves; `json_to_xml` drops that
edit without any failure and continues, applying the second placeholder's
edit. -/
theorem C5_counterexample :
    applyEdits
        (EditableM.mk [RunM.mk 0 (codes "AB") 0 9 []]
          [PlaceholderM.mk (codes "\x7bX\x7d") 0 [SegM.mk 5 0 3],
            PlaceholderM.mk (codes "\x7bY\x7d") 0 [SegM.mk 0 0 1]])
        [(codes "\x7bX\x7d", codes "Z"), (codes "\x7bY\x7d", codes "W")]
        [codes "AB"] =
      [codes "WB"] := by
  decide

/-- Witness for the amended C5 at a concrete unresolvable segment. -/
theorem C5_witness :
    applyPhEdit [RunM.mk 0 (codes "AB") 0 9 []] [(codes "\x7bX\x7d", codes "Z")]
        [codes "AB"] (PlaceholderM.mk (codes "\x7bX\x7d") 0 [SegM.mk 5 0 3]) =
      [codes "AB"] :=
  C5_theorem [RunM.mk 0 (codes "AB") 0 9 []] [(codes "\x7bX\x7d", codes "Z")]
    [codes "AB"] (PlaceholderM.mk (codes "\x7bX\x7d") 0 [SegM.mk 5 0 3])
    ⟨SegM.mk 5 0 3, by decide, by decide⟩

/-! ### Auto-detected edits on mapping mismatches (C4) -/

theorem dictGet_append [DecidableEq α] (k : α) (xs ys : List (α × β)) :
    dictGet (xs ++ ys) k = ((dictGet ys k).rec (dictGet xs k) some : Option β) := by
  show (xs ++ ys).foldl _ none = _
  rw [List.foldl_append]
  exact dictGet_foldl k ys (dictGet xs k)

theorem dictGet_is_some_of_mem [DecidableEq α] (k : α) (v : β) :
    ∀ m : List (α × β), (k, v) ∈ m → ∃ w, dictGet m k = some w
  | x :: m, hmem => by
    rw [dictGet_cons]
    cases hdm : dictGet m k with
    | some w => exact ⟨w, rfl⟩
    | none =>
      rcases List.mem_cons.mp hmem with he | hm
      · subst he
        exact ⟨v, by simp⟩
      · obtain ⟨w, hw⟩ := dictGet_is_some_of_mem k v m hm
        rw [hdm] at hw
        cases hw

theorem dictGet_some_mem [DecidableEq α] {k : α} {v : β} :
    ∀ {m : List (α × β)}, dictGet m k = some v → (k, v) ∈ m
  | [], h => by cases h
  | x :: m, h => by
    rw [dictGet_cons] at h
    cases hdm : dictGet m k with
    | some w =>
      rw [hdm] at h
      cases h
      exact List.mem_cons_of_mem _ (dictGet_some_mem hdm)
    | none =>
      rw [hdm] at h
      split at h
      next hx =>
        cases h
        have : x = (k, x.2) := by
          rw [← hx]
        rw [List.mem_cons]
        left
        rw [this]
      next => cases h

/-- The auto-detect fold is the mismatching placeholders, in order, mapped to
`(token, reconstructed text)`. -/
theorem auto_detect_eq (ed : EditableM) (h1 : ¬ ed.runs = []) (h2 : ¬ ed.placeholders = []) :
    auto_detect_edits_from_runs ed =
      (ed.placeholders.filter fun ph =>
          reconstructSpan ed.runs ph.runs ≠ ph.placeholder).map
        fun ph => (ph.placeholder, reconstructSpan ed.runs ph.runs) := by
  unfold auto_detect_edits_from_runs
  rw [if_neg (by simp [h1, h2])]
  suffices H : ∀ (l : List PlaceholderM) (init : List (Codes × Codes)),
      l.foldl (fun acc ph =>
          if reconstructSpan ed.runs ph.runs ≠ ph.placeholder then
            acc ++ [(ph.placeholder, reconstructSpan ed.runs ph.runs)]
          else acc) init =
        init ++ (l.filter fun ph =>
            reconstructSpan ed.runs ph.runs ≠ ph.placeholder).map
          fun ph => (ph.placeholder, reconstructSpan ed.runs ph.runs) by
    simpa using H ed.placeholders []
  intro l
  induction l with
  | nil => simp
  | cons ph l ih =>
    intro init
    rw [List.foldl_cons]
    by_cases hc : reconstructSpan ed.runs ph.runs ≠ ph.placeholder
    · rw [if_pos hc, ih, List.filter_cons_of_pos (by simpa using hc)]
      simp
    · rw [if_neg hc, ih, List.filter_cons_of_neg (by simpa using hc)]

/-- C4 (amended): a placeholder whose reconstructed span text no longer
matches its token is *not* skipped — auto-detection records an edit mapping
the token to the reconstructed text of a mismatching placeholder with that
token, and this auto edit is what the merged per-entry edit set returns for
the token, overriding any explicit `_edits` entry. -/
theorem C4_theorem (ed : EditableM) (ph : PlaceholderM) (explicit : List (Codes × Codes))
    (hruns : ¬ ed.runs = []) (hph : ph ∈ ed.placeholders)
    (hmis : reconstructSpan ed.runs ph.runs ≠ ph.placeholder) :
    ∃ ph', ph' ∈ ed.placeholders ∧ ph'.placeholder = ph.placeholder ∧
      reconstructSpan ed.runs ph'.runs ≠ ph'.placeholder ∧
      dictGet (auto_detect_edits_from_runs ed) ph.placeholder =
        some (reconstructSpan ed.runs ph'.runs) ∧
      dictGet (explicit ++ auto_detect_edits_from_runs ed) ph.placeholder =
        some (reconstructSpan ed.runs ph'.runs) := by
  have hne : ¬ ed.placeholders = [] := fun h => by
    rw [h] at hph
    cases hph
  rw [auto_detect_eq ed hruns hne, dictGet_append]
  have hmem : (ph.placeholder, reconstructSpan ed.runs ph.runs) ∈
      (ed.placeholders.filter fun q =>
          reconstructSpan ed.runs q.runs ≠ q.placeholder).map
        (fun q => (q.placeholder, reconstructSpan ed.runs q.runs)) :=
    List.mem_map_of_mem _ (List.mem_filter.mpr ⟨hph, by simpa using hmis⟩)
  obtain ⟨w, hw⟩ := dictGet_is_some_of_mem _ _ _ hmem
  have hpair := dictGet_some_mem hw
  rw [List.mem_map] at hpair
  obtain ⟨ph', hph', heq⟩ := hpair
  rw [List.mem_filter] at hph'
  have htok : ph'.placeholder = ph.placeholder := congrArg Prod.fst heq
  have hval : reconstructSpan ed.runs ph'.runs = w := congrArg Prod.snd heq
  refine ⟨ph', hph'.1, htok, by simpa using hph'.2, ?_, ?_⟩
  · rw [hw, hval]
  · rw [hw, hval]

/-- C4 counterexample to the claim as stated: run 0's JSON text was edited to
`Adi` while the recorded placeholder token is `{N}`; the reconstruction
mismatch is turned into the auto edit `{N} → Adi`, which `json_to_xml`
applies to the parsed element (text `{N}` becomes `Adi`) instead of skipping
the edit. -/
theorem C4_counterexample :
    auto_detect_edits_from_runs
        (EditableM.mk [RunM.mk 0 (codes "Adi") 5 16 []]
          [PlaceholderM.mk (codes "\x7bN\x7d") 0 [SegM.mk 0 0 3]]) =
      [(codes "\x7bN\x7d", codes "Adi")] ∧
    applyEdits
        (EditableM.mk [RunM.mk 0 (codes "Adi") 5 16 []]
          [PlaceholderM.mk (codes "\x7bN\x7d") 0 [SegM.mk 0 0 3]])
        ([] ++ auto_detect_edits_from_runs
          (EditableM.mk [RunM.mk 0 (codes "Adi") 5 16 []]
            [PlaceholderM.mk (codes "\x7bN\x7d") 0 [SegM.mk 0 0 3]]))
        [codes "\x7bN\x7d"] =
      [codes "Adi"] ∧
    codes "Adi" ≠ codes "\x7bN\x7d" := by
  decide

/-- Witness for the amended C4 at the same concrete entry, with an explicit
edit for the token being overridden by the auto-detected one. -/
theorem C4_witness :
    ∃ ph', ph' ∈ (EditableM.mk [RunM.mk 0 (codes "Adi") 5 16 []]
        [PlaceholderM.mk (codes "\x7bN\x7d") 0 [SegM.mk 0 0 3]]).placeholders ∧
      ph'.placeholder = codes "\x7bN\x7d" ∧
      reconstructSpan [RunM.mk 0 (codes "Adi") 5 16 []] ph'.runs ≠ ph'.placeholder ∧
      dictGet (auto_detect_edits_from_runs
          (EditableM.mk [RunM.mk 0 (codes "Adi") 5 16 []]
            [PlaceholderM.mk (codes "\x7bN\x7d") 0 [SegM.mk 0 0 3]])) (codes "\x7bN\x7d") =
        some (reconstructSpan [RunM.mk 0 (codes "Adi") 5 16 []] ph'.runs) ∧
      dictGet ([(codes "\x7bN\x7d", codes "X")] ++ auto_detect_edits_from_runs
          (EditableM.mk [RunM.mk 0 (codes "Adi") 5 16 []]
            [PlaceholderM.mk (codes "\x7bN\x7d") 0 [SegM.mk 0 0 3]])) (codes "\x7bN\x7d") =
        some (reconstructSpan [RunM.mk 0 (codes "Adi") 5 16 []] ph'.runs) :=
  C4_theorem
    (EditableM.mk [RunM.mk 0 (codes "Adi") 5 16 []]
      [PlaceholderM.mk (codes "\x7bN\x7d") 0 [SegM.mk 0 0 3]])
    (PlaceholderM.mk (codes "\x7bN\x7d") 0 [SegM.mk 0 0 3])
    [(codes "\x7bN\x7d", codes "X")]
    (by decide) (by decide) (by decide)

/-! ### The multi-run splice shape (C3) -/

theorem getT_set_ne (ts : List Codes) (i j : Nat) (v : Codes) (h : i ≠ j) :
    getT (ts.set i v) j = getT ts j := by
  unfold getT
  rw [List.getD_eq_getElem?_getD, List.getD_eq_getElem?_getD, List.getElem?_set_ne h]

theorem getT_set_self (ts : List Codes) (i : Nat) (v : Codes) (h : i < ts.length) :
    getT (ts.set i v) i = v := by
  unfold getT
  rw [List.getD_eq_getElem?_getD, List.getElem?_set_self h]
  rfl

/-- Effect of the middle-elements fold: each listed index gets its covered
slice removed (reading its pre-fold text, indices being distinct), every
other index is untouched. -/
theorem foldl_mids_spec :
    ∀ (mids : List (Nat × Nat × Nat)) (acc : List Codes),
      (mids.map (·.1)).Nodup → (∀ q ∈ mids, q.1 < acc.length) →
      ((∀ j, j ∉ mids.map (·.1) →
          getT (mids.foldl (fun ts p =>
            ts.set p.1 ((getT ts p.1).take p.2.1 ++ (getT ts p.1).drop p.2.2)) acc) j =
            getT acc j) ∧
        (∀ q ∈ mids,
          getT (mids.foldl (fun ts p =>
            ts.set p.1 ((getT ts p.1).take p.2.1 ++ (getT ts p.1).drop p.2.2)) acc) q.1 =
            (getT acc q.1).take q.2.1 ++ (getT acc q.1).drop q.2.2) ∧
        (mids.foldl (fun ts p =>
            ts.set p.1 ((getT ts p.1).take p.2.1 ++ (getT ts p.1).drop p.2.2)) acc).length =
          acc.length)
  | [], acc, _, _ => by
    refine ⟨fun j _ => rfl, fun q hq => ?_, rfl⟩
    cases hq
  | m :: mids, acc, hnd, hlt => by
    rw [List.foldl_cons]
    have hnd' : (mids.map (·.1)).Nodup := by
      rw [List.map_cons, List.nodup_cons] at hnd
      exact hnd.2
    have hm1 : m.1 ∉ mids.map (·.1) := by
      rw [List.map_cons, List.nodup_cons] at hnd
      exact hnd.1
    have hmlt : m.1 < acc.length := hlt m (by simp)
    have hlt' : ∀ q ∈ mids, q.1 <
        (acc.set m.1 ((getT acc m.1).take m.2.1 ++ (getT acc m.1).drop m.2.2)).length := by
      intro q hq
      rw [List.length_set]
      exact hlt q (by simp [hq])
    have ih := foldl_mids_spec mids
      (acc.set m.1 ((getT acc m.1).take m.2.1 ++ (getT acc m.1).drop m.2.2)) hnd' hlt'
    refine ⟨?_, ?_, ?_⟩
    · intro j hj
      rw [List.map_cons, List.mem_cons] at hj
      push_neg at hj
      rw [ih.1 j hj.2, getT_set_ne _ _ _ _ (fun he => hj.1 he.symm)]
    · intro q hq
      rcases List.mem_cons.mp hq with he | hm
      · subst he
        rw [ih.1 q.1 hm1, getT_set_self _ _ _ hmlt]
      · have hne : m.1 ≠ q.1 := by
          intro he
          exact hm1 (he ▸ List.mem_map_of_mem _ hm)
        rw [ih.2.1 q hm, getT_set_ne _ _ _ _ hne]
    · rw [ih.2.2, List.length_set]

/-- Unfolding the multi-element splice into first / middles / last phases. -/
theorem spliceElems_cons_concat (ts : List Codes) (x : Nat × Nat × Nat)
    (mids : List (Nat × Nat × Nat)) (lst : Nat × Nat × Nat) (repl : Codes) :
    spliceElems ts (x :: mids ++ [lst]) repl =
      (mids.foldl (fun acc p =>
          acc.set p.1 ((getT acc p.1).take p.2.1 ++ (getT acc p.1).drop p.2.2))
        (ts.set x.1 ((getT ts x.1).take x.2.1 ++ repl))).set lst.1
        ((getT (mids.foldl (fun acc p =>
            acc.set p.1 ((getT acc p.1).take p.2.1 ++ (getT acc p.1).drop p.2.2))
          (ts.set x.1 ((getT ts x.1).take x.2.1 ++ repl))) lst.1).drop lst.2.2) := by
  obtain ⟨i0, s0, e0⟩ := x
  obtain ⟨il, sl, el⟩ := lst
  cases mids with
  | nil => rfl
  | cons m ms =>
    simp only [spliceElems]
    split
    next heq => exact absurd heq (by simp)
    next i s e heq => exact absurd heq (by simp)
    next i0' s0' snd rest heq =>
      injection heq with he1 he2
      subst he2
      injection he1 with ha hb
      injection hb with hb1 hb2
      subst ha
      subst hb1
      simp only [List.append_eq]
      rw [List.getLast?_concat, List.dropLast_concat]

/-- C3 (amended): when an edit applies to a placeholder with several
contributing runs (resolving to distinct parsed elements), the *first*
element keeps its text before `start_in_run` and receives the replacement
after it, every middle element keeps only its text outside its covered
slice, the *last* element keeps only its text after `end_in_run`, and all
other elements are untouched; in particular, for the three consecutive runs
`{`, `MemFirstName`, `}` fully covered by `{MemFirstName} → Aditya`, the run
texts become `Aditya`, `""`, `""`. -/
theorem C3_theorem :
    (∀ (runsMeta : List RunM) (file_edits : List (Codes × Codes)) (ts : List Codes)
        (ph : PlaceholderM) (repl : Codes) (i0 s0 e0 : Nat)
        (mids : List (Nat × Nat × Nat)) (il sl el : Nat),
      dictGet file_edits ph.placeholder = some repl →
      resolveSegs runsMeta ts.length ph.runs =
        some ((i0, s0, e0) :: mids ++ [(il, sl, el)]) →
      ((((i0, s0, e0) :: mids ++ [(il, sl, el)]).map (·.1)).Nodup) →
      (∀ q ∈ (i0, s0, e0) :: mids ++ [(il, sl, el)], q.1 < ts.length) →
      getT (applyPhEdit runsMeta file_edits ts ph) i0 = (getT ts i0).take s0 ++ repl ∧
        (∀ q ∈ mids, getT (applyPhEdit runsMeta file_edits ts ph) q.1 =
          (getT ts q.1).take q.2.1 ++ (getT ts q.1).drop q.2.2) ∧
        getT (applyPhEdit runsMeta file_edits ts ph) il = (getT ts il).drop el ∧
        (∀ j, j ∉ (((i0, s0, e0) :: mids ++ [(il, sl, el)]).map (·.1)) →
          getT (applyPhEdit runsMeta file_edits ts ph) j = getT ts j)) ∧
      applyEdits
          (make_editable_for_xml
            (codes "<w:t>\x7b</w:t><w:t>MemFirstName</w:t><w:t>\x7d</w:t>"))
          [(codes "\x7bMemFirstName\x7d", codes "Aditya")]
          [codes "\x7b", codes "MemFirstName", codes "\x7d"] =
        [codes "Aditya", codes "", codes ""] := by
  constructor
  · intro runsMeta file_edits ts ph repl i0 s0 e0 mids il sl el hdg hres hnd hlt
    have hphr : ¬ ph.runs = [] := by
      intro h
      rw [h] at hres
      rw [show resolveSegs runsMeta ts.length [] = some [] from rfl] at hres
      simp at hres
    have happ : applyPhEdit runsMeta file_edits ts ph =
        spliceElems ts ((i0, s0, e0) :: mids ++ [(il, sl, el)]) repl := by
      simp only [applyPhEdit, hdg, hres, if_neg hphr]
    -- index distinctness facts
    have hmap : (((i0, s0, e0) :: mids ++ [(il, sl, el)]).map (·.1)) =
        i0 :: (mids.map (·.1) ++ [il]) := by
      simp
    rw [hmap] at hnd
    rw [List.nodup_cons] at hnd
    obtain ⟨hi0, hnd2⟩ := hnd
    have hi0m : i0 ∉ mids.map (·.1) := fun h => hi0 (by simp [h])
    have hi0l : ¬ i0 = il := fun h => hi0 (by simp [h])
    have hnd3 := List.Nodup.of_append_left hnd2
    have hdisj := List.disjoint_of_nodup_append hnd2
    have hilm : il ∉ mids.map (·.1) := fun h => hdisj h (by simp)
    -- length facts
    have hi0lt : i0 < ts.length := hlt (i0, s0, e0) (by simp)
    have hillt : il < ts.length := hlt (il, sl, el) (by simp)
    have hmidlt : ∀ q ∈ mids, q.1 <
        (ts.set i0 ((getT ts i0).take s0 ++ repl)).length := by
      intro q hq
      rw [List.length_set]
      exact hlt q (by simp [hq])
    have hfold := foldl_mids_spec mids (ts.set i0 ((getT ts i0).take s0 ++ repl))
      hnd3 hmidlt
    rw [happ, spliceElems_cons_concat]
    dsimp only
    have hFlen : (mids.foldl (fun acc p =>
        acc.set p.1 ((getT acc p.1).take p.2.1 ++ (getT acc p.1).drop p.2.2))
        (ts.set i0 ((getT ts i0).take s0 ++ repl))).length = ts.length := by
      rw [hfold.2.2, List.length_set]
    refine ⟨?_, ?_, ?_, ?_⟩
    · rw [getT_set_ne _ _ _ _ (fun h => hi0l h.symm), hfold.1 i0 hi0m,
        getT_set_self _ _ _ hi0lt]
    · intro q hq
      have hqil : ¬ il = q.1 := by
        intro h
        exact hilm (h ▸ List.mem_map_of_mem _ hq)
      have hqi0 : ¬ i0 = q.1 := by
        intro h
        exact hi0m (h ▸ List.mem_map_of_mem _ hq)
      rw [getT_set_ne _ _ _ _ hqil, hfold.2.1 q hq, getT_set_ne _ _ _ _ hqi0]
    · rw [getT_set_self _ _ _ (by rw [hFlen]; exact hillt),
        hfold.1 il hilm, getT_set_ne _ _ _ _ hi0l]
    · intro j hj
      rw [hmap, List.mem_cons] at hj
      push_neg at hj
      obtain ⟨hj0, hj1⟩ := hj
      rw [List.mem_append] at hj1
      push_neg at hj1
      have hjil : ¬ il = j := fun h => hj1.2 (by simp [h])
      rw [getT_set_ne _ _ _ _ hjil, hfold.1 j hj1.1,
        getT_set_ne _ _ _ _ (fun h => hj0 h.symm)]
  · decide

/-- C3 counterexample to the claim as stated: the placeholder `{X}` spans the
two runs `a{` and `X}`; after the edit `{X} → R` the first contributing
run's text is `aR` — its prefix `a` is kept — not exactly the replacement
`R`. -/
theorem C3_counterexample :
    applyEdits (make_editable_for_xml (codes "<w:t>a\x7b</w:t><w:t>X\x7d</w:t>"))
        [(codes "\x7bX\x7d", codes "R")] [codes "a\x7b", codes "X\x7d"] =
      [codes "aR", []] ∧ ¬ codes "aR" = codes "R" := by
  decide

/-- Witness for the amended C3 at the same two-run entry. -/
theorem C3_witness :
    getT (applyPhEdit (make_editable_for_xml (codes "<w:t>a\x7b</w:t><w:t>X\x7d</w:t>")).runs
        [(codes "\x7bX\x7d", codes "R")] [codes "a\x7b", codes "X\x7d"]
        (PlaceholderM.mk (codes "\x7bX\x7d") 1 [SegM.mk 0 1 2, SegM.mk 1 0 2])) 0 =
      (getT [codes "a\x7b", codes "X\x7d"] 0).take 1 ++ codes "R" := by
  have h := C3_theorem.1 (make_editable_for_xml (codes "<w:t>a\x7b</w:t><w:t>X\x7d</w:t>")).runs
    [(codes "\x7bX\x7d", codes "R")] [codes "a\x7b", codes "X\x7d"]
    (PlaceholderM.mk (codes "\x7bX\x7d") 1 [SegM.mk 0 1 2, SegM.mk 1 0 2])
    (codes "R") 0 1 2 [] 1 0 2 (by decide) (by decide) (by decide) (by decide)
  exact h.1

/-! ### List lemmas for the block decomposition -/

/-- `takeWhile` over an all-true prefix stops exactly at a failing byte. -/
theorem takeWhile_append_stop (p : α → Bool) :
    ∀ (A : List α) (c0 : α) (z : List α), (∀ c ∈ A, p c = true) → p c0 = false →
      (A ++ c0 :: z).takeWhile p = A
  | [], c0, z, _, hc => by simp [List.takeWhile_cons, hc]
  | a :: A, c0, z, hA, hc => by
    have ha : p a = true := hA a (by simp)
    simp only [List.cons_append, List.takeWhile_cons, ha, if_true]
    rw [takeWhile_append_stop p A c0 z (fun c hcm => hA c (by simp [hcm])) hc]

/-- `takeWhile` never reads past a failing byte. -/
theorem takeWhile_append_of_neg (p : α → Bool) {c : α} (hc : p c = false) :
    ∀ (A z : List α), (A ++ c :: z).takeWhile p = A.takeWhile p
  | [], z => by simp [List.takeWhile_cons, hc]
  | a :: A, z => by
    simp only [List.cons_append, List.takeWhile_cons]
    rw [takeWhile_append_of_neg p hc A z]

/-- The head after a drop within the left part ignores the far continuation. -/
theorem head_drop_append (x : Bytes) (c : Nat) (z : Bytes) (n : Nat)
    (h : n ≤ x.length) :
    ((x ++ c :: z).drop n).head? = ((x ++ [c]).drop n).head? := by
  rw [List.drop_append_eq_append_drop, List.drop_append_eq_append_drop]
  rw [show n - x.length = 0 by omega]
  simp [List.head?_append]

/-- A prefix test shorter than the left part ignores the continuation. -/
theorem isPrefixOf_append_right {p X : Bytes} (z : Bytes) (h : p.length ≤ X.length) :
    p.isPrefixOf (X ++ z) = p.isPrefixOf X := by
  by_cases hx : p <+: X
  · rw [List.isPrefixOf_iff_prefix.mpr hx,
      List.isPrefixOf_iff_prefix.mpr (hx.trans (List.prefix_append X z))]
  · have h2 : ¬ p <+: X ++ z := by
      intro hc
      apply hx
      have he := List.prefix_iff_eq_take.mp hc
      rw [List.take_append_eq_append_take, show p.length - X.length = 0 by omega] at he
      simp at he
      exact List.prefix_iff_eq_take.mpr he
    rw [Bool.eq_false_iff.mpr (fun hb => hx (List.isPrefixOf_iff_prefix.mp hb)),
      Bool.eq_false_iff.mpr (fun hb => h2 (List.isPrefixOf_iff_prefix.mp hb))]

/-! ### `opensTB` under continuations -/

/-- Opening a `t` tag survives appending to the right. -/
theorem opensTB_append {x : Bytes} (z : Bytes) (h : opensTB x = true) :
    opensTB (x ++ z) = true := by
  match x with
  | [] => cases h
  | b :: rest =>
    simp only [opensTB, List.cons_append] at h ⊢
    obtain ⟨hb, hor⟩ := Bool.and_eq_true_iff.mp h
    rw [hb, Bool.true_and]
    rcases Bool.or_eq_true_iff.mp hor with h116 | hrun3
    · simp only [beq_iff_eq] at h116
      simp [List.head?_append, h116]
    · obtain ⟨hAB, h116b⟩ := Bool.and_eq_true_iff.mp hrun3
      obtain ⟨hne, h58⟩ := Bool.and_eq_true_iff.mp hAB
      cases hdl : rest.drop (rest.takeWhile wordByte).length with
      | nil => rw [hdl] at h58; simp at h58
      | cons d tl =>
        rw [hdl] at h58
        simp only [List.head?_cons, beq_iff_eq, Option.some.injEq] at h58
        subst h58
        have hgr : ∃ r, rest.takeWhile wordByte = r := ⟨_, rfl⟩
        obtain ⟨r, hgr⟩ := hgr
        rw [hgr] at hne hdl h116b
        have htk : rest.take r.length = r := by
          rw [← hgr]
          exact (List.prefix_iff_eq_take.mp (List.takeWhile_prefix _)).symm
        have hsplit : r ++ 58 :: tl = rest := by
          rw [← htk, ← hdl]
          exact List.take_append_drop _ rest
        have hres : rest ++ z = r ++ 58 :: (tl ++ z) := by
          rw [← hsplit]
          simp
        have htwz : (rest ++ z).takeWhile wordByte = r := by
          rw [hres]
          exact takeWhile_append_stop wordByte r 58 (tl ++ z)
            (fun c hc => List.mem_takeWhile_imp (hgr ▸ hc)) (by decide)
        have hdz : (rest ++ z).drop r.length = 58 :: (tl ++ z) := by
          rw [hres]
          exact List.drop_left _ _
        have hdz1 : (rest ++ z).drop (r.length + 1) = tl ++ z := by
          rw [hres, List.drop_append 1]
          rfl
        have h116tl : tl.head? = some 116 := by
          have h2 : rest.drop (r.length + 1) = tl := by
            rw [← hsplit, List.drop_append 1]
            rfl
          rw [h2] at h116b
          simpa using h116b
        refine Bool.or_eq_true_iff.mpr (Or.inr ?_)
        rw [htwz, hdz, hdz1]
        simp [List.head?_append, h116tl, hne]

/-- Whether a `t` tag opens at a position is decided no further than one byte
past the end of `x`, when that byte is inert (not a word byte, `t`, or `:`). -/
theorem opensTB_append_head {x : Bytes} {c : Nat} (z : Bytes) (hx : x ≠ [])
    (hw : wordByte c = false) (hc2 : c ≠ 58) :
    opensTB (x ++ c :: z) = opensTB (x ++ [c]) := by
  match x, hx with
  | b :: x', _ =>
    simp only [List.cons_append, opensTB]
    have htw := takeWhile_append_of_neg wordByte hw x' z
    have htw' : (x' ++ [c]).takeWhile wordByte = x'.takeWhile wordByte :=
      takeWhile_append_of_neg wordByte hw x' []
    have hr : (x'.takeWhile wordByte).length ≤ x'.length :=
      (List.takeWhile_prefix wordByte).length_le
    have h0 : (x' ++ c :: z).head? = (x' ++ [c]).head? := by
      have := head_drop_append x' c z 0 (by omega)
      simpa using this
    rw [htw, htw', h0]
    by_cases hcase : (x'.takeWhile wordByte).length + 1 ≤ x'.length
    · rw [head_drop_append x' c z _ (by omega), head_drop_append x' c z _ (by omega)]
    · have hrl : (x'.takeWhile wordByte).length = x'.length := by omega
      have hA : ((x' ++ c :: z).drop (x'.takeWhile wordByte).length).head? = some c := by
        rw [hrl, List.drop_left]
        rfl
      have hB : ((x' ++ [c]).drop (x'.takeWhile wordByte).length).head? = some c := by
        rw [hrl, List.drop_left]
        rfl
      rw [hA, hB]
      have hcf : (some c == some 58) = false := by simp [hc2]
      rw [hcf]
      simp

/-- Every successful `_T_BYTES_RE` suffix match opens a `t` tag. -/
theorem opensTB_of_matchSuffix {u : Bytes} {m : SufMatch}
    (h : matchSuffix u = some m) : opensTB u = true := by
  simp only [matchSuffix] at h
  split at h
  next b rest =>
    split at h
    next h60 =>
      subst h60
      split at h
      next m2 hm2 =>
        split at hm2
        next hcond =>
          obtain ⟨h1, h2, h3⟩ := hcond
          simp only [opensTB]
          have hne : (!(rest.takeWhile wordByte).isEmpty) = true := by
            cases hrn : rest.takeWhile wordByte with
            | nil => exact absurd hrn h1
            | cons a l => rfl
          rw [h2, h3, hne]
          simp
        next => cases hm2
      next hnone =>
        split at h
        next c rest2 =>
          split at h
          next hc =>
            subst hc
            simp [opensTB]
          next => cases h
        next => cases h
    next => cases h
  next => cases h

/-- No `t` tag opening at a position means no match attempt succeeds there. -/
theorem tNext_none_of_not_opensTB {raw : Bytes} {i : Nat}
    (h : opensTB (raw.drop i) = false) : tNext raw i = none := by
  unfold tNext
  cases hms : matchSuffix (raw.drop i) with
  | none => rfl
  | some m =>
    rw [opensTB_of_matchSuffix hms] at h
    cases h

/-- A separator-safe filler opens no tag even with nothing after it. -/
theorem SepOK_drop {f : Bytes} (h : SepOK f) {i : Nat} (hi : i < f.length) :
    opensTB (f.drop i) = false := by
  cases hb : opensTB (f.drop i) with
  | false => rfl
  | true =>
    have := opensTB_append [60] hb
    rw [h i hi] at this
    cases this

/-- A separator-safe filler opens no tag before any `<`-led continuation. -/
theorem SepOK_cons60 {f : Bytes} (h : SepOK f) {i : Nat} (hi : i < f.length)
    (z : Bytes) : opensTB (f.drop i ++ 60 :: z) = false := by
  rw [opensTB_append_head z (fun he => absurd (List.drop_eq_nil_iff.mp he) (by omega))
    (by decide) (by decide)]
  exact h i hi

/-- `matchFinish` on well-formed attribute/text/closing-tag bytes: the
attributes scan stops at the `>`, and the lazy close search lands exactly at
the block's own closing tag. -/
theorem matchFinish_block {tag att tx rest : Bytes} (consumed : Nat)
    (ha : ∀ c ∈ att, c ≠ 62)
    (ht : ∀ j < tx.length,
      (([60, 47] ++ tag ++ [62]).isPrefixOf
        ((tx ++ ([60, 47] ++ tag ++ [62])).drop j)) = false) :
    matchFinish tag (att ++ 62 :: (tx ++ (([60, 47] ++ tag ++ [62]) ++ rest)))
        consumed =
      some ⟨tag, consumed + att.length + 1, tx.length,
        consumed + att.length + 1 + tx.length + (tag.length + 3)⟩ := by
  have htw : (att ++ 62 :: (tx ++ (([60, 47] ++ tag ++ [62]) ++ rest))).takeWhile
      (fun b => decide (b ≠ 62)) = att :=
    takeWhile_append_stop _ att 62 _ (fun c hc => by simp [ha c hc]) (by simp)
  have hfo : firstOccur (tx ++ (([60, 47] ++ tag ++ [62]) ++ rest))
      ([60, 47] ++ tag ++ [62]) = some tx.length := by
    apply firstOccur_complete
    · rw [List.drop_left]
      exact List.isPrefixOf_iff_prefix.mpr (List.prefix_append _ _)
    · intro j hj
      have hd : (tx ++ (([60, 47] ++ tag ++ [62]) ++ rest)).drop j =
          (tx.drop j ++ ([60, 47] ++ tag ++ [62])) ++ rest := by
        rw [List.drop_append_eq_append_drop, show j - tx.length = 0 by omega]
        simp
      rw [hd, isPrefixOf_append_right rest
        (by simp only [List.length_append, List.length_drop]; omega)]
      have hd2 : (tx ++ ([60, 47] ++ tag ++ [62])).drop j =
          tx.drop j ++ ([60, 47] ++ tag ++ [62]) := by
        rw [List.drop_append_eq_append_drop, show j - tx.length = 0 by omega]
        simp
      rw [← hd2]
      exact ht j hj
  simp only [matchFinish, htw, List.drop_left, hfo]
  simp

/-- `_T_BYTES_RE` matches exactly a well-formed block at its start: tag name
as recorded, text group starting after the opening tag, span the whole block. -/
theorem matchSuffix_block (b : TBlockM) (rest : Bytes)
    (hn : NameOK b.tname) (ha : AttrsOK b.attrs) (htx : TxtOK b) :
    matchSuffix (blockBytes b ++ rest) =
      some ⟨b.tname, (openTagB b).length, b.txt.length, (blockBytes b).length⟩ := by
  obtain ⟨tn, att, tx⟩ := b
  simp only [TxtOK, closeTagB] at htx
  simp only at hn ha
  rcases hn with htn | ⟨w, hwne, hww, htn⟩
  · subst htn
    have hshape : blockBytes ⟨[116], att, tx⟩ ++ rest =
        60 :: 116 :: (att ++ 62 :: (tx ++ (([60, 47] ++ [116] ++ [62]) ++ rest))) := by
      simp [blockBytes, openTagB, closeTagB]
    rw [hshape]
    have htw0 : (att ++ 62 :: (tx ++ (([60, 47] ++ [116] ++ [62]) ++ rest))).takeWhile
        wordByte = [] := by
      rcases ha.2 with hae | ⟨c, a2, hc, hwc, hc58⟩
      · subst hae
        have h62 : wordByte 62 = false := by decide
        simp [List.takeWhile_cons, h62]
      · rw [hc]
        simp [List.takeWhile_cons, hwc]
    have h116w : wordByte 116 = true := by decide
    have hrun : (116 :: (att ++ 62 :: (tx ++ (([60, 47] ++ [116] ++ [62]) ++
        rest)))).takeWhile wordByte = [116] := by
      rw [List.takeWhile_cons, if_pos h116w, htw0]
    have hh : (att ++ (62 : Nat) :: (tx ++ (([60, 47] ++ [116] ++ [62]) ++
        rest))).head? ≠ some 58 := by
      rcases ha.2 with hae | ⟨c, a2, hc, hwc, hc58⟩
      · subst hae
        simp
      · rw [hc]
        simp [hc58]
    simp only [matchSuffix]
    rw [hrun]
    have hncond : ¬ (([116] : Bytes) ≠ [] ∧
        ((116 :: (att ++ 62 :: (tx ++ (([60, 47] ++ [116] ++ [62]) ++
          rest)))).drop ([116] : Bytes).length).head? = some 58 ∧
        ((116 :: (att ++ 62 :: (tx ++ (([60, 47] ++ [116] ++ [62]) ++
          rest)))).drop (([116] : Bytes).length + 1)).head? = some 116) :=
      fun hcc => hh (by simpa using hcc.2.1)
    rw [if_neg hncond]
    show matchFinish [116]
        (att ++ 62 :: (tx ++ (([60, 47] ++ [116] ++ [62]) ++ rest))) 2 = _
    rw [matchFinish_block 2 ha.1 htx]
    refine congrArg some ?_
    rw [SufMatch.mk.injEq]
    refine ⟨rfl, ?_, rfl, ?_⟩ <;> simp [openTagB, blockBytes, closeTagB] <;> omega
  · subst htn
    have hshape : blockBytes ⟨w ++ [58, 116], att, tx⟩ ++ rest =
        60 :: (w ++ (58 :: 116 :: (att ++ 62 :: (tx ++
          (([60, 47] ++ (w ++ [58, 116]) ++ [62]) ++ rest))))) := by
      simp [blockBytes, openTagB, closeTagB]
    rw [hshape]
    have hrun : (w ++ (58 :: 116 :: (att ++ 62 :: (tx ++
        (([60, 47] ++ (w ++ [58, 116]) ++ [62]) ++ rest))))).takeWhile wordByte = w :=
      takeWhile_append_stop wordByte w 58 _ hww (by decide)
    have h58h : ((w ++ (58 :: 116 :: (att ++ 62 :: (tx ++
        (([60, 47] ++ (w ++ [58, 116]) ++ [62]) ++ rest))))).drop w.length).head? =
        some 58 := by
      rw [List.drop_left]
      rfl
    have h116h : ((w ++ (58 :: 116 :: (att ++ 62 :: (tx ++
        (([60, 47] ++ (w ++ [58, 116]) ++ [62]) ++ rest))))).drop (w.length + 1)).head? =
        some 116 := by
      rw [List.drop_append 1]
      rfl
    have hdrop2 : (w ++ (58 :: 116 :: (att ++ 62 :: (tx ++
        (([60, 47] ++ (w ++ [58, 116]) ++ [62]) ++ rest))))).drop (w.length + 2) =
        att ++ 62 :: (tx ++ (([60, 47] ++ (w ++ [58, 116]) ++ [62]) ++ rest)) := by
      rw [List.drop_append 2]
      rfl
    simp only [matchSuffix]
    rw [hrun]
    have hcond : w ≠ [] ∧
        ((w ++ (58 :: 116 :: (att ++ 62 :: (tx ++
          (([60, 47] ++ (w ++ [58, 116]) ++ [62]) ++ rest))))).drop w.length).head? =
          some 58 ∧
        ((w ++ (58 :: 116 :: (att ++ 62 :: (tx ++
          (([60, 47] ++ (w ++ [58, 116]) ++ [62]) ++ rest))))).drop
            (w.length + 1)).head? = some 116 := ⟨hwne, h58h, h116h⟩
    rw [if_pos hcond, hdrop2, matchFinish_block (1 + w.length + 2) ha.1 htx]
    show some _ = some _
    refine congrArg some ?_
    rw [SufMatch.mk.injEq]
    refine ⟨rfl, ?_, rfl, ?_⟩ <;> simp [openTagB, blockBytes, closeTagB] <;> omega

/-- `finditer` over an assembled filler/block input emits exactly one match
per block, in order, each spanning its block exactly. -/
theorem scan_blocks :
    ∀ (parts : List (Bytes × TBlockM)) (trailing P raw : Bytes),
      raw = P ++ assembleBlocks parts trailing →
      (∀ pb ∈ parts, NameOK pb.2.tname ∧ AttrsOK pb.2.attrs ∧ TxtOK pb.2 ∧
        SepOK pb.1) →
      SepOK trailing →
      ∀ fuel, raw.length ≤ P.length + fuel →
        scanG (tNext raw) raw.length P.length fuel = expectedTMatches parts P.length
  | [], trailing, P, raw, hraw, _, htr, fuel, hfuel => by
    subst hraw
    have hlen : (P ++ assembleBlocks [] trailing).length =
        P.length + trailing.length := by
      simp [assembleBlocks]
    have hnone : ∀ j, P.length ≤ j → j < P.length + trailing.length →
        tNext (P ++ assembleBlocks [] trailing) j = none := by
      intro j h1 h2
      apply tNext_none_of_not_opensTB
      have hdrop : (P ++ assembleBlocks [] trailing).drop j =
          trailing.drop (j - P.length) := by
        simp only [assembleBlocks]
        rw [List.drop_append_eq_append_drop, List.drop_eq_nil_of_le (by omega),
          List.nil_append]
      rw [hdrop]
      exact SepOK_drop htr (by omega)
    rw [scanG_skip trailing.length P.length fuel 0 hfuel (by omega) hnone]
    rw [scanG_zero]
    rfl
  | (f, b) :: ps, trailing, P, raw, hraw, hp, htr, fuel, hfuel => by
    obtain ⟨hn, ha, htx, hsep⟩ := hp (f, b) (by simp)
    dsimp only at hn ha htx hsep
    have hptail : ∀ pb ∈ ps, NameOK pb.2.tname ∧ AttrsOK pb.2.attrs ∧
        TxtOK pb.2 ∧ SepOK pb.1 := fun pb hpb => hp pb (by simp [hpb])
    have hassem : raw = P ++ (f ++ (blockBytes b ++ assembleBlocks ps trailing)) := by
      rw [hraw]
      simp [assembleBlocks]
    have hnb : 0 < (blockBytes b).length := by
      simp only [blockBytes, openTagB, closeTagB, List.length_append,
        List.length_cons, List.length_nil]
      omega
    have hlen : raw.length = P.length + f.length + (blockBytes b).length +
        (assembleBlocks ps trailing).length := by
      rw [hassem]
      simp only [List.length_append]
      omega
    have hnone : ∀ j, P.length ≤ j → j < P.length + f.length →
        tNext raw j = none := by
      intro j h1 h2
      apply tNext_none_of_not_opensTB
      have hdrop : raw.drop j = f.drop (j - P.length) ++
          (blockBytes b ++ assembleBlocks ps trailing) := by
        rw [hassem, List.drop_append_eq_append_drop,
          List.drop_eq_nil_of_le (by omega), List.nil_append,
          List.drop_append_eq_append_drop,
          show j - P.length - f.length = 0 by omega, List.drop_zero]
      have hbs : blockBytes b ++ assembleBlocks ps trailing =
          60 :: (b.tname ++ (b.attrs ++ (62 :: (b.txt ++ (closeTagB b ++
            assembleBlocks ps trailing))))) := by
        simp [blockBytes, openTagB]
      rw [hdrop, hbs]
      exact SepOK_cons60 hsep (by omega) _
    have hdropb : raw.drop (P.length + f.length) =
        blockBytes b ++ assembleBlocks ps trailing := by
      rw [hassem, ← List.append_assoc,
        show P.length + f.length = (P ++ f).length by simp]
      exact List.drop_left _ _
    have hstep : tNext raw (P.length + f.length) =
        some (⟨b.tname, P.length + f.length,
          P.length + f.length + (blockBytes b).length,
          P.length + f.length + (openTagB b).length, b.txt.length⟩,
          P.length + f.length + (blockBytes b).length) := by
      unfold tNext
      rw [hdropb, matchSuffix_block b (assembleBlocks ps trailing) hn ha htx]
    rw [scanG_skip f.length P.length fuel
      ((blockBytes b).length + (assembleBlocks ps trailing).length + 1)
      hfuel (by omega) hnone]
    rw [scanG_step_some (by omega) hstep (by omega)]
    have hplen : (P ++ f ++ blockBytes b).length =
        P.length + f.length + (blockBytes b).length := by
      simp only [List.length_append]
    have hih := scan_blocks ps trailing (P ++ f ++ blockBytes b) raw
      (by rw [hassem]; simp) hptail htr
      ((blockBytes b).length + (assembleBlocks ps trailing).length) (by omega)
    rw [hplen] at hih
    rw [hih]
    simp only [expectedTMatches]

/-- `runsOfMatches` as an `enumFrom`-map (definitional restatement). -/
theorem runsOfMatches_enumFrom (raw : Bytes) (ms : List TMatchM) :
    runsOfMatches raw ms = (ms.enumFrom 0).map fun p =>
      RunM.mk p.1
        (utf8Decode (sub raw p.2.textStart (p.2.textStart + p.2.textLen)))
        p.2.start p.2.stop (b64encode (sub raw p.2.start p.2.stop)) := rfl

/-- Enumerating the expected matches of an assembled input and slicing the
raw bytes at their spans yields the expected runs. -/
theorem runsOf_expected :
    ∀ (parts : List (Bytes × TBlockM)) (trailing P raw : Bytes) (k : Nat),
      raw = P ++ assembleBlocks parts trailing →
      ((expectedTMatches parts P.length).enumFrom k).map (fun p =>
        RunM.mk p.1
          (utf8Decode (sub raw p.2.textStart (p.2.textStart + p.2.textLen)))
          p.2.start p.2.stop (b64encode (sub raw p.2.start p.2.stop))) =
      expectedRuns parts P.length k
  | [], _, P, raw, k, _ => by
    simp [expectedTMatches, expectedRuns, List.enumFrom]
  | (f, b) :: ps, trailing, P, raw, k, hraw => by
    have hplen : (P ++ f ++ blockBytes b).length =
        P.length + f.length + (blockBytes b).length := by
      simp only [List.length_append]
    have hsnip : sub raw (P.length + f.length)
        (P.length + f.length + (blockBytes b).length) = blockBytes b := by
      unfold sub
      rw [show raw = (P ++ f) ++ (blockBytes b ++ assembleBlocks ps trailing) by
        rw [hraw]; simp [assembleBlocks]]
      rw [show P.length + f.length = (P ++ f).length from (List.length_append P f).symm]
      rw [List.drop_left, Nat.add_sub_cancel_left]
      exact List.take_left _ _
    have htext : sub raw (P.length + f.length + (openTagB b).length)
        (P.length + f.length + (openTagB b).length + b.txt.length) = b.txt := by
      unfold sub
      rw [show raw = ((P ++ f) ++ openTagB b) ++
          (b.txt ++ (closeTagB b ++ assembleBlocks ps trailing)) by
        rw [hraw]; simp [assembleBlocks, blockBytes]]
      rw [show P.length + f.length + (openTagB b).length =
          ((P ++ f) ++ openTagB b).length by simp only [List.length_append]]
      rw [List.drop_left, Nat.add_sub_cancel_left]
      exact List.take_left _ _
    have hih := runsOf_expected ps trailing (P ++ f ++ blockBytes b) raw (k + 1)
      (by rw [hraw]; simp [assembleBlocks])
    rw [hplen] at hih
    simp only [expectedTMatches, expectedRuns, List.enumFrom, List.map_cons]
    rw [htext, hsnip, hih]

/-- C6 counterexample to the claim as stated: the extractor does NOT match
self-closing `t` variants.  On `<w:t/>` the regex finds nothing and no run is
produced, while the explicitly closed `<w:t></w:t>` does produce a run. -/
theorem C6_counterexample :
    T_BYTES_finditer (codes "<w:t/>") = [] ∧
      (make_editable_for_xml (codes "<w:t/>")).runs = [] ∧
      ¬ (make_editable_for_xml (codes "<w:t></w:t>")).runs = [] := by
  decide

/-- C6 theorem (amended): on raw bytes decomposed as filler/explicitly-closed
`t`-element blocks — tag name `t` or `word-run:t`, attribute bytes free of `>`
and starting inertly, inner text not containing the closing tag, and fillers
(which may hold any other elements) opening no `t` tag at any position — the
run extractor produces exactly one run per block, in byte order: `run_id`s
`0, 1, 2, …`, text the block's decoded inner text (empty when there is none),
and the byte span from the block's opening `<` through its closing tag's `>`.
Self-closing `t` elements are not blocks and yield no runs (counterexample). -/
theorem C6_theorem (parts : List (Bytes × TBlockM)) (trailing : Bytes)
    (hp : ∀ pb ∈ parts, NameOK pb.2.tname ∧ AttrsOK pb.2.attrs ∧ TxtOK pb.2 ∧
      SepOK pb.1)
    (htr : SepOK trailing) :
    (make_editable_for_xml (assembleBlocks parts trailing)).runs =
      expectedRuns parts 0 0 := by
  rw [make_editable_runs]
  have hscan := scan_blocks parts trailing [] (assembleBlocks parts trailing)
    (by simp) hp htr ((assembleBlocks parts trailing).length + 1) (by simp)
  have hfind : T_BYTES_finditer (assembleBlocks parts trailing) =
      expectedTMatches parts 0 := by
    unfold T_BYTES_finditer
    simpa using hscan
  rw [hfind, runsOfMatches_enumFrom]
  have h2 := runsOf_expected parts trailing [] (assembleBlocks parts trailing) 0
    (by simp)
  simpa using h2

/-- Witness for C6 at a concrete two-block document: a namespaced empty-attr
block `<w:t>hi</w:t>` and a bare block with attributes `<t x=1>yo</t>`,
wrapped in `w:r` filler elements. -/
theorem C6_witness :
    (make_editable_for_xml (assembleBlocks
        [(codes "<w:r>", TBlockM.mk (codes "w:t") [] (codes "hi")),
         (codes "</w:r><w:r>", TBlockM.mk (codes "t") (codes " x=1") (codes "yo"))]
        (codes "</w:r>"))).runs =
      expectedRuns
        [(codes "<w:r>", TBlockM.mk (codes "w:t") [] (codes "hi")),
         (codes "</w:r><w:r>", TBlockM.mk (codes "t") (codes " x=1") (codes "yo"))]
        0 0 := by
  refine C6_theorem _ _ ?_ (by decide)
  intro pb hpb
  rcases List.mem_cons.mp hpb with h | h
  · subst h
    exact ⟨Or.inr ⟨codes "w", by decide, by decide, by decide⟩,
      ⟨by decide, Or.inl rfl⟩, by decide, by decide⟩
  · rcases List.mem_cons.mp h with h2 | h2
    · subst h2
      exact ⟨Or.inl (by decide), ⟨by decide, Or.inr ⟨32, codes "x=1", by decide,
        by decide, by decide⟩⟩, by decide, by decide⟩
    · cases h2
